import Mathlib

/-!
# Verification of the Loader/Controller core (`pkg/flow/internal/controller/loader.go`)

This development gives a shallow embedding of the Loader of this repository:
the component that turns configuration block lists into a dependency graph,
reconciles the graph across reloads (`Apply`), topologically sorts `declare`
blocks (`SortDeclareBlocks` / `findDeclareDependencies`), and performs
incremental re-evaluation of dependents (`EvaluateDependencies` /
`concurrentEvalFn`).

The Go source of the Loader itself is embedded faithfully.  The packages the
Loader calls into (`dag`, `worker`, the value cache, the node constructors and
the `dskit` backoff helper) are code of the repository/toolchain that is not
part of the sources available here; wherever one of their operations is
needed, the corresponding definition carries a doc comment starting with
"Modelled from the spec:" and follows the specification's description of that
operation.

Conventions of the embedding:
* Go `map` iteration order is unspecified; the embedding fixes the
  first-insertion order of keys.  All proved properties are order-insensitive.
* Go `int` is modelled as `Int` (so decrementing a zero in-degree yields `-1`,
  exactly as in Go, and never spuriously re-enqueues a label).
* Go pointer identity of nodes is modelled by a `ref : Nat` field; a node is
  "the same instance" exactly when its `ref` is the same.
-/

namespace Controller

mutual
/-- A parsed statement of a block body: either a nested block (with a dotted
name, a label and its own body) or a non-block statement (attributes etc.),
which the declare-dependency search ignores.  `refs` lists the node IDs that
the block's expressions reference; the river expression tree itself is opaque
to the Loader, which only extracts references from it. -/
inductive Stmt where
  | block (name : List String) (label : String) (body : Stmts) (refs : List String)
  | attr
/-- A statement list (`[]ast.Stmt`). -/
inductive Stmts where
  | nil
  | cons (head : Stmt) (tail : Stmts)
end

deriving instance DecidableEq for Stmt, Stmts

/-- An `ast.BlockStmt` as the Loader consumes it: the dotted name, the label,
the nested statements and the node references appearing in its expressions.
(`Stmts` is the statement list `[]ast.Stmt`; it is a separate inductive only
so that recursion over statement trees is structural.) -/
structure BlockStmt where
  name : List String
  label : String
  body : Stmts
  refs : List String
deriving DecidableEq

/-- `strings.Join(blockStmt.Name, ".")`. -/
def joinName (name : List String) : String :=
  String.intercalate "." name

/-- Severity of a diagnostic.  Every diagnostic the embedded Loader code adds
is `SeverityLevelError` in the source. -/
inductive Severity where
  | error
  | warn
deriving DecidableEq, Repr

/-- The payload of a diagnostic; positions are dropped, the message of each
`diags.Add` call in the source is represented by one constructor carrying the
data interpolated into the message. -/
inductive DiagKind where
  | cycleInDeclare (unresolvedLabels : List String)
  | unrecognizedComponentName (componentName : String)
  | componentRedeclared (id : String)
  | componentMustHaveLabel (componentName : String)
  | duplicateServiceDefinition (id : String)
  | configBlockRedeclared (id : String)
  | invalidServiceReference (fromId toId : String)
  | graphCycle
  | failedToBuild (id : String)
deriving DecidableEq, Repr

/-- A `diag.Diagnostic` (severity and message payload). -/
structure Diag where
  severity : Severity
  kind : DiagKind
deriving DecidableEq, Repr

/-- `diag.Diagnostics`. -/
abbrev Diags := List Diag

/-- `diag.Diagnostics.HasErrors`. -/
def hasErrors (ds : Diags) : Bool :=
  ds.any (fun d => decide (d.severity = Severity.error))

/-! ## The in-degree map of `SortDeclareBlocks`

Go maps `map[string]int` are modelled as association lists whose first
matching entry is the binding; a missing key reads as `0`, and writing a
missing key appends it (as Go `inDegree[dep]--` does). -/

/-- Association list from labels to Go `int` counters. -/
abbrev IntMap := List (String × Int)

/-- Read a key; a missing key reads as zero, as in Go. -/
def getD (m : IntMap) (k : String) : Int :=
  match m with
  | [] => 0
  | p :: rest => if p.1 = k then p.2 else getD rest k

/-- Write a key: replace the first binding, or append a new one. -/
def setV (m : IntMap) (k : String) (v : Int) : IntMap :=
  match m with
  | [] => [(k, v)]
  | p :: rest => if p.1 = k then (k, v) :: rest else p :: setV rest k v

/-- Total non-negative weight of the map, the termination measure of Kahn's
loop. -/
def weight (m : IntMap) : Nat :=
  (m.map (fun p => p.2.toNat)).sum

/-! ## `findDeclareDependencies` -/

mutual
/-- `findDeclareDependencies` (loader.go): walks the body of a declare block
statement by statement, concatenating each statement's contribution; a nested
block named exactly `declare` is searched recursively, any other nested block
whose joined name is a key of `blockByLabel` (here: a member of `labels`) is
a dependency. -/
def findDeclareDependencies (body : Stmts) (labels : List String) : List String :=
  match body with
  | Stmts.nil => []
  | Stmts.cons s rest => findStmtDeps s labels ++ findDeclareDependencies rest labels
/-- One statement's contribution to `findDeclareDependencies`. -/
def findStmtDeps (s : Stmt) (labels : List String) : List String :=
  match s with
  | Stmt.attr => []
  | Stmt.block name _ b _ =>
    let fullName := joinName name
    if fullName = "declare" then findDeclareDependencies b labels
    else if fullName ∈ labels then [fullName]
    else []
end

/-! ## `SortDeclareBlocks` -/

/-- The key set of Go's `blockByLabel` map, in first-insertion order. -/
def declareLabels (blocks : List BlockStmt) : List String :=
  blocks.foldl (fun acc b => if b.label ∈ acc then acc else acc ++ [b.label]) []

/-- `blockByLabel[label]`: the binding left in the map after the first loop of
`SortDeclareBlocks`, i.e. the last block carrying the label. -/
def lookupLabel (blocks : List BlockStmt) (l : String) : Option BlockStmt :=
  blocks.reverse.find? (fun b => decide (b.label = l))

/-- The edge list built by the second loop of `SortDeclareBlocks`: one entry
`(dep, label)` per occurrence of `dep` in the dependencies of each block, in
iteration order.  `graph[dep]` and `inDegree[label]` below are both derived
from this list. -/
def declareEdges (blocks : List BlockStmt) : List (String × String) :=
  (blocks.map (fun b =>
    (findDeclareDependencies b.body (declareLabels blocks)).map (fun d => (d, b.label)))).flatten

/-- `graph[lbl]` derived from the edge list: the successors of `lbl` in
append order. -/
def adjOf (edges : List (String × String)) (lbl : String) : List String :=
  edges.filterMap (fun e => if e.1 = lbl then some e.2 else none)

/-- `inDegree` after the second loop: one increment per edge. -/
def incrAll (edges : List (String × String)) : IntMap :=
  edges.foldl (fun m e => setV m e.2 (getD m e.2 + 1)) []

/-- Processing `graph[label]` when `label` is popped: each successor's
in-degree is decremented, and a successor whose in-degree becomes exactly
zero is appended to the queue. -/
def processEdges (targets : List String) (indeg : IntMap) (queue : List String) :
    IntMap × List String :=
  match targets with
  | [] => (indeg, queue)
  | d :: ds =>
    let v := getD indeg d - 1
    let indeg1 := setV indeg d v
    let queue1 := if v = 0 then queue ++ [d] else queue
    processEdges ds indeg1 queue1

/-- Kahn's loop of `SortDeclareBlocks`: pop the queue head, emit it, process
its outgoing edges, repeat until the queue is empty.  Returns the emitted
labels in order together with the final in-degree map.  The loop terminates
because `weight indeg + queue.length` strictly decreases
(`processEdges_measure`); it is written with an explicit `fuel` bound on that
measure so that it is structurally recursive (and so kernel-evaluable); by
`kahnLoop_fuel_irrelevant` the fuel cutoff branch is dead for any fuel at
least the measure, which is how `kahnResult` calls it. -/
def kahnLoop (adj : String → List String) (fuel : Nat) (indeg : IntMap)
    (queue : List String) : List String × IntMap :=
  match fuel, queue with
  | _, [] => ([], indeg)
  | 0, _ :: _ => ([], indeg)
  | fuel + 1, label :: rest =>
    let p := processEdges (adj label) indeg rest
    let r := kahnLoop adj fuel p.1 p.2
    (label :: r.1, r.2)

/-- Lexicographic comparison of char lists by code point, the order
`sort.Strings` sorts by. -/
def charListLe : List Char → List Char → Bool
  | [], _ => true
  | _ :: _, [] => false
  | a :: as, b :: bs =>
    if a.toNat < b.toNat then true
    else if b.toNat < a.toNat then false
    else charListLe as bs

/-- String comparison by code points. -/
def strLe (a b : String) : Bool := charListLe a.data b.data

/-- Sorted insertion of a string. -/
def insertSortedStr (s : String) : List String → List String
  | [] => [s]
  | x :: xs => if strLe s x then s :: x :: xs else x :: insertSortedStr s xs

/-- `sort.Strings`: ascending lexicographic sort (modelled by insertion
sort; `sort.Strings` is fully specified by "ascending sorted permutation"). -/
def sortStrings (l : List String) : List String :=
  l.foldr insertSortedStr []

/-- The Kahn phase of `SortDeclareBlocks`: the emitted labels in order and
the final in-degree map. -/
def kahnResult (declareBlocks : List BlockStmt) : List String × IntMap :=
  let labels := declareLabels declareBlocks
  let edges := declareEdges declareBlocks
  let indeg0 := incrAll edges
  let queue0 := labels.filter (fun l => decide (getD indeg0 l = 0))
  kahnLoop (adjOf edges) (weight indeg0 + queue0.length) indeg0 queue0

/-- The unresolved labels reported on a cycle: the keys of the final
in-degree map whose count is still positive, sorted (`sort.Strings`). -/
def unresolvedOf (declareBlocks : List BlockStmt) : List String :=
  sortStrings (((kahnResult declareBlocks).2.filter (fun p => 0 < p.2)).map Prod.fst)

/-- `SortDeclareBlocks` (loader.go): builds the label-dependency graph, runs
Kahn's in-degree-zero topological sort, and either returns the sorted block
list (`some`) with no diagnostics, or `none` (Go `nil`) with one error
diagnostic listing the labels of positive remaining in-degree in sorted
order. -/
def SortDeclareBlocks (declareBlocks : List BlockStmt) :
    Option (List BlockStmt) × Diags :=
  let labels := declareLabels declareBlocks
  let r := kahnResult declareBlocks
  if r.1.length = labels.length then
    (some (r.1.filterMap (fun l => lookupLabel declareBlocks l)), [])
  else
    (none, [⟨Severity.error, DiagKind.cycleInDeclare (unresolvedOf declareBlocks)⟩])

/-! ## Counting helpers for the Kahn invariant -/

/-- Number of occurrences of `x` in a list of strings. -/
def occ (x : String) : List String → Nat
  | [] => 0
  | y :: r => (if y = x then 1 else 0) + occ x r

/-- Number of edge occurrences into `t`. -/
def cntIn (edges : List (String × String)) (t : String) : Nat :=
  match edges with
  | [] => 0
  | e :: r => (if e.2 = t then 1 else 0) + cntIn r t

/-- Number of edge occurrences into `t` whose source is in `emitted`. -/
def cntFrom (edges : List (String × String)) (emitted : List String) (t : String) : Nat :=
  match edges with
  | [] => 0
  | e :: r => (if e.2 = t ∧ e.1 ∈ emitted then 1 else 0) + cntFrom r emitted t

/-- Number of occurrences of the edge `(s, t)`. -/
def cntEdge (edges : List (String × String)) (s t : String) : Nat :=
  match edges with
  | [] => 0
  | e :: r => (if e.1 = s ∧ e.2 = t then 1 else 0) + cntEdge r s t

/-! ## The Kahn loop invariant -/

/-- Ambient facts about the edge and label lists that `SortDeclareBlocks`
constructs: labels are distinct and every edge endpoint is a label. -/
structure EdgeCtx (edges : List (String × String)) (labels : List String) : Prop where
  nodupL : labels.Nodup
  srcMem : ∀ e ∈ edges, e.1 ∈ labels
  tgtMem : ∀ e ∈ edges, e.2 ∈ labels

/-- Loop invariant of Kahn's sort, relating the labels already emitted, the
queue and the in-degree map. -/
structure KahnInv (edges : List (String × String)) (labels : List String)
    (emitted queue : List String) (indeg : IntMap) : Prop where
  nodupE : emitted.Nodup
  nodupQ : queue.Nodup
  disj : ∀ x ∈ queue, x ∉ emitted
  subE : ∀ x ∈ emitted, x ∈ labels
  subQ : ∀ x ∈ queue, x ∈ labels
  deg : ∀ t, getD indeg t = (cntIn edges t : Int) - (cntFrom edges emitted t : Int)
  zeroIff : ∀ l ∈ labels, (l ∈ emitted ∨ l ∈ queue) ↔ cntIn edges l = cntFrom edges emitted l
  topo : ∀ e ∈ edges, ∀ l1 l2, emitted = l1 ++ e.2 :: l2 → e.1 ∈ l1
  keysNd : (indeg.map Prod.fst).Nodup
  keysSub : ∀ x ∈ indeg.map Prod.fst, x ∈ labels

/-! ## Completeness (acyclic case) and the cycle case -/

/-- Acyclicity of an edge list, expressed by a topological numbering: every
edge goes from a lower-ranked to a higher-ranked label.  For a finite graph
this is the standard characterization of having no directed cycle. -/
def EdgeAcyclic (edges : List (String × String)) : Prop :=
  ∃ rank : String → Nat, ∀ e ∈ edges, rank e.1 < rank e.2

/-- A directed path (one or more edges) through the edge list. -/
inductive EdgeReach (edges : List (String × String)) : String → String → Prop where
  | single {x y : String} : (x, y) ∈ edges → EdgeReach edges x y
  | tail {x y z : String} : EdgeReach edges x y → (y, z) ∈ edges → EdgeReach edges x z

/-- Position of the first occurrence of `x` in `E` (length of `E` if absent). -/
def posIn (E : List String) (x : String) : Nat :=
  match E with
  | [] => 0
  | y :: r => if y = x then 0 else posIn r x + 1

/-! ## C7: `findDeclareDependencies` against the spec's reference predicate -/

mutual
/-- Spec predicate for the refinement claim C7, following the spec's words:
a body references label `lbl` when some block statement in it — searched
recursively through the bodies of nested `declare` blocks — has joined name
equal to `lbl`. -/
def specBodyReferences (body : Stmts) (lbl : String) : Bool :=
  match body with
  | Stmts.nil => false
  | Stmts.cons s rest => specStmtReferences s lbl || specBodyReferences rest lbl
/-- One statement of the spec's reference search. -/
def specStmtReferences (s : Stmt) (lbl : String) : Bool :=
  match s with
  | Stmt.attr => false
  | Stmt.block name _ b _ =>
    if joinName name = "declare" then specBodyReferences b lbl
    else decide (joinName name = lbl)
end

/-! ## Concrete examples for the sort claims -/

/-- A block statement instantiating (referencing) the block type `n`. -/
def useBlock (n lbl : String) : Stmt := Stmt.block [n] lbl Stmts.nil []

/-- `declare "a" { }`. -/
def exDeclA : BlockStmt := ⟨["declare"], "a", Stmts.nil, []⟩

/-- `declare "b" { a "x" { } }`. -/
def exDeclB : BlockStmt := ⟨["declare"], "b", Stmts.cons (useBlock "a" "x") Stmts.nil, []⟩

/-- `declare "c" { b "y" { } }`. -/
def exDeclC : BlockStmt := ⟨["declare"], "c", Stmts.cons (useBlock "b" "y") Stmts.nil, []⟩

/-- `declare "a" { b "x" { } }`, half of a two-cycle. -/
def exCycA : BlockStmt := ⟨["declare"], "a", Stmts.cons (useBlock "b" "x") Stmts.nil, []⟩

/-- `declare "b" { a "y" { } }`, the other half. -/
def exCycB : BlockStmt := ⟨["declare"], "b", Stmts.cons (useBlock "a" "y") Stmts.nil, []⟩

/-- `declare "b" { declare "inner" { a "x" { } } }`: the reference to `a`
sits inside a nested declare. -/
def exNestB : BlockStmt :=
  ⟨["declare"], "b",
    Stmts.cons (Stmt.block ["declare"] "inner"
      (Stmts.cons (useBlock "a" "x") Stmts.nil) []) Stmts.nil, []⟩

/-- First of two declare blocks sharing the label `a`. -/
def exDupA1 : BlockStmt := ⟨["declare"], "a", Stmts.nil, ["first"]⟩

/-- Second of two declare blocks sharing the label `a`. -/
def exDupA2 : BlockStmt := ⟨["declare"], "a", Stmts.nil, ["second"]⟩

/-! ## The dependency graph (`dag` package)

The `dag` package is repository code not present under `src/`; its
operations are modelled from the spec (section 4.1): node/edge storage,
`GetByID`, `Add`, `AddEdge`, cycle detection, transitive reduction, clone,
incoming-neighbor query and topological walk. -/

/-- Variants of graph nodes (the polymorphic `dag.Node` implementations). -/
inductive NodeKind where
  | component (componentName : String)
  | service
  | declareComponent
  | argumentConfig
  | config
deriving DecidableEq, Repr

/-- A graph node.  `ref` models Go pointer identity: two nodes are the same
running instance exactly when their `ref` agrees.  `block` is the node's
most recent block (`UpdateBlock` replaces it without changing `ref`). -/
structure Node where
  ref : Nat
  kind : NodeKind
  id : String
  nspace : String
  block : Option BlockStmt
deriving DecidableEq

/-- Modelled from the spec: the `dag.Graph` container with node and edge
storage.  Nodes are kept in insertion order, keyed by their `NodeID`; an
edge `(from, to)` of node IDs means `from` depends on `to`. -/
structure Graph where
  nodes : List Node
  edges : List (String × String)
deriving DecidableEq

/-- The empty graph. -/
def Graph.empty : Graph := ⟨[], []⟩

/-- Modelled from the spec: `GetByID(id) Node|nil`. -/
def Graph.GetByID (g : Graph) (id : String) : Option Node :=
  g.nodes.find? (fun n => decide (n.id = id))

/-- Modelled from the spec: `Add(node)` stores the node under its ID (the
graph keeps no duplicate node IDs: adding an existing ID replaces that
entry, like a map write). -/
def Graph.Add (g : Graph) (n : Node) : Graph :=
  if (g.nodes.any (fun m => decide (m.id = n.id))) then
    { g with nodes := g.nodes.map (fun m => if m.id = n.id then n else m) }
  else
    { g with nodes := g.nodes ++ [n] }

/-- Modelled from the spec: `AddEdge(from, to)`. -/
def Graph.AddEdge (g : Graph) (e : String × String) : Graph :=
  { g with edges := g.edges ++ [e] }

/-- Modelled from the spec: `Clone()` is an independent copy; with value
semantics the copy is the graph itself. -/
def Graph.Clone (g : Graph) : Graph := g

/-- Modelled from the spec: `MergeEdges` adds all the edges of the other
graph. -/
def Graph.MergeEdges (g sub : Graph) : Graph :=
  { g with edges := g.edges ++ sub.edges }

/-- Direct dependency targets of the node with the given ID (edge sources
depend on edge targets). -/
def Graph.nexts (g : Graph) (id : String) : List String :=
  g.edges.filterMap (fun e => if e.1 = id then some e.2 else none)

/-- One closure step of reachability: add every direct successor of an
already-reached ID. -/
def reachStep (g : Graph) (acc : List String) : List String :=
  acc.foldl (fun a id =>
    (g.nexts id).foldl (fun a2 t => if t ∈ a2 then a2 else a2 ++ [t]) a) acc

/-- Fuel-bounded reachability closure. -/
def reachAux (g : Graph) : Nat → List String → List String
  | 0, acc => acc
  | fuel + 1, acc => reachAux g fuel (reachStep g acc)

/-- `t` is reachable from `s` following zero or more edges (the fuel, one
per possible path length, suffices for any path in the graph). -/
def Graph.reachable (g : Graph) (s t : String) : Bool :=
  decide (t ∈ reachAux g (g.edges.length + 1) [s])

/-- Modelled from the spec: cycle detection behind `Validate` — the graph
has a directed cycle exactly when some edge closes back on its source. -/
def Graph.hasCycle (g : Graph) : Bool :=
  g.edges.any (fun e => g.reachable e.2 e.1)

/-- Modelled from the spec: `Reduce()` performs a transitive reduction —
an edge is dropped when a longer path between its endpoints exists. -/
def Graph.reduce (g : Graph) : Graph :=
  { g with
    edges := g.edges.filter (fun e =>
      ! g.edges.any (fun f =>
        decide (f.1 = e.1) && ! decide (f.2 = e.2) && g.reachable f.2 e.2)) }

/-- Modelled from the spec: `WalkIncomingNodes` visits a node's direct
predecessors (the nodes depending on it), i.e. the sources of its incoming
edges. -/
def Graph.incomingNodes (g : Graph) (id : String) : List Node :=
  g.nodes.filter (fun m => decide ((m.id, id) ∈ g.edges))

/-- One pick of the topological walk: the first remaining node (insertion
order) all of whose dependencies are visited. -/
def topoPick (g : Graph) (remaining : List Node) (visited : List String) : Option Node :=
  remaining.find? (fun n => (g.nexts n.id).all (fun d => decide (d ∈ visited)))

/-- Fuel-bounded loop of the topological walk. -/
def topoAux (g : Graph) : Nat → List Node → List String → List Node
  | 0, _, _ => []
  | fuel + 1, remaining, visited =>
    match topoPick g remaining visited with
    | none => []
    | some n =>
      n :: topoAux g fuel (remaining.filter (fun m => ! decide (m.id = n.id)))
        (visited ++ [n.id])

/-- Modelled from the spec: `WalkTopological` visits leaves (nodes with no
unvisited dependencies) before dependents, breaking ties among ready nodes
in insertion order. -/
def Graph.topoOrder (g : Graph) : List Node :=
  topoAux g g.nodes.length g.nodes []

/-! ## The Loader state and environment -/

/-- The collaborators `Apply`/`EvaluateDependencies` interact with: the
component registry (`Get` succeeds or not per type name), the known
services and their declared dependencies, whether the controller runs as a
nested module (`OnExportsChange` set), and each node's evaluation outcome
(`Evaluate` is an external capability; `true` means it returns an error,
which the Loader records as a diagnostic without stopping the walk). -/
structure LoaderEnv where
  registry : String → Bool
  services : List String
  serviceDeps : String → List String
  isModule : Bool
  evalFails : String → Bool

/-- The mutable fields of `Loader` that the embedded operations touch.
`cacheArgs` keeps the keys cached by `CacheModuleArgument` (values are
opaque payloads); `freshRef` is the allocator giving each newly constructed
node a fresh identity. -/
structure LoaderState where
  graph : Graph
  originalGraph : Graph
  componentNodes : List Node
  serviceNodes : List Node
  blocks : List BlockStmt
  cacheArgs : List String
  freshRef : Nat
deriving DecidableEq

/-- The state `NewLoader` builds: empty graphs, no nodes, no blocks. -/
def NewLoader : LoaderState :=
  ⟨Graph.empty, Graph.empty, [], [], [], [], 0⟩

/-- `BlockComponentID(block).String()`: name fragments plus the label when
present, joined with dots. -/
def blockID (b : BlockStmt) : String :=
  joinName (b.name ++ (if b.label = "" then [] else [b.label]))

/-- `splitComponentBlocks`: blocks whose component ID names a known service
are service blocks, the rest are component blocks. -/
def splitComponentBlocks (env : LoaderEnv) (blocks : List BlockStmt) :
    List BlockStmt × List BlockStmt :=
  (blocks.filter (fun b => ! decide (blockID b ∈ env.services)),
   blocks.filter (fun b => decide (blockID b ∈ env.services)))

/-- `populateServiceNodes`: every known service gets a node (reusing the
previous generation's instance by ID and resetting its block to nil), then
service blocks are assigned, rejecting duplicates. -/
def populateServiceNodes (env : LoaderEnv) (st : LoaderState) (g : Graph)
    (serviceBlocks : List BlockStmt) : Graph × LoaderState × Diags :=
  let step1 := env.services.foldl
    (fun (acc : Graph × LoaderState × Diags) svc =>
      let (g, st, diags) := acc
      if (g.GetByID svc).isSome then
        (g, st, diags ++ [⟨Severity.error, DiagKind.duplicateServiceDefinition svc⟩])
      else
        match st.graph.GetByID svc with
        | some exist =>
          if exist.kind = NodeKind.service then
            (g.Add { exist with block := none }, st, diags)
          else
            (g.Add ⟨st.freshRef, NodeKind.service, svc, "", none⟩,
             { st with freshRef := st.freshRef + 1 }, diags)
        | none =>
          (g.Add ⟨st.freshRef, NodeKind.service, svc, "", none⟩,
           { st with freshRef := st.freshRef + 1 }, diags))
    (g, st, [])
  serviceBlocks.foldl
    (fun (acc : Graph × LoaderState × Diags) block =>
      let (g, st, diags) := acc
      match g.GetByID (blockID block) with
      | some node =>
        if node.block ≠ none then
          (g, st, diags ++ [⟨Severity.error, DiagKind.duplicateServiceDefinition (blockID block)⟩])
        else
          (g.Add { node with block := some block }, st, diags)
      | none => (g, st, diags))
    step1

/-- Modelled from the spec: `NewConfigNode` builds a config-block node for
the block (logging, tracing, argument, export, …); its ID is the block's
component ID, argument blocks get the argument variant used for declare
wiring.  The `nodeMap` bookkeeping that validates required blocks per
module mode is modelled as always passing (that code is not under `src/`
and no claim depends on it). -/
def NewConfigNode (st : LoaderState) (block : BlockStmt) : Node × LoaderState :=
  (⟨st.freshRef,
    if joinName block.name = "argument" then NodeKind.argumentConfig else NodeKind.config,
    blockID block, "", some block⟩,
   { st with freshRef := st.freshRef + 1 })

/-- `populateConfigBlockNodes`: add config-block nodes, rejecting duplicate
IDs; when not inside a module, synthesize default logging and tracing nodes
if those blocks are absent. -/
def populateConfigBlockNodes (st : LoaderState) (g : Graph)
    (configBlocks : List BlockStmt) (inModule : Bool) : Graph × LoaderState × Diags :=
  let step1 := configBlocks.foldl
    (fun (acc : Graph × LoaderState × Diags) block =>
      let (g, st, diags) := acc
      let (node, st2) := NewConfigNode st block
      if (g.GetByID node.id).isSome then
        (g, st2, diags ++ [⟨Severity.error, DiagKind.configBlockRedeclared node.id⟩])
      else
        (g.Add node, st2, diags))
    (g, st, [])
  let step2 :=
    if (configBlocks.all (fun b => ! decide (joinName b.name = "logging"))) && ! inModule then
      (step1.1.Add ⟨step1.2.1.freshRef, NodeKind.config, "logging", "", none⟩,
       { step1.2.1 with freshRef := step1.2.1.freshRef + 1 }, step1.2.2)
    else step1
  if (configBlocks.all (fun b => ! decide (joinName b.name = "tracing"))) && ! inModule then
    (step2.1.Add ⟨step2.2.1.freshRef, NodeKind.config, "tracing", "", none⟩,
     { step2.2.1 with freshRef := step2.2.1.freshRef + 1 }, step2.2.2)
  else step2

/-- The categorized statements of a declare block body. -/
structure Categorized where
  components : List BlockStmt
  configs : List BlockStmt
  declares : List BlockStmt

/-- The config-block names of the configuration language. -/
def configBlockNames : List String := ["logging", "tracing", "argument", "export"]

/-- Modelled from the spec: `CategorizeStatements` splits a declare body
into component, config and declare block lists (non-block statements carry
no node). -/
def CategorizeStatements : Stmts → Categorized
  | Stmts.nil => ⟨[], [], []⟩
  | Stmts.cons s rest =>
    let c := CategorizeStatements rest
    match s with
    | Stmt.attr => c
    | Stmt.block name label body refs =>
      let b : BlockStmt := ⟨name, label, body, refs⟩
      if joinName name = "declare" then
        { c with declares := b :: c.declares }
      else if joinName name ∈ configBlockNames then
        { c with configs := b :: c.configs }
      else
        { c with components := b :: c.components }

/-- Modelled from the spec: `DeepClone(id)` — a fresh set of namespaced
nodes: every node is copied with a new identity, its ID prefixed by the
instance ID and its namespace set to the instance ID; internal edges are
preserved under the prefixed IDs. -/

def deepClone (g : Graph) (instanceId : String) (st : LoaderState) :
    Graph × LoaderState :=
  let prefixed := fun (i : String) => instanceId ++ "/" ++ i
  (⟨(g.nodes.enum.map (fun p =>
      ⟨st.freshRef + p.1, p.2.kind, prefixed p.2.id, instanceId, p.2.block⟩)),
    g.edges.map (fun e => (prefixed e.1, prefixed e.2))⟩,
   { st with freshRef := st.freshRef + g.nodes.length })

/-- `MergeSubgraph` (loader.go): add the instantiated subgraph's nodes to
the graph under construction, but reuse the previous generation's component
node (updating its block) whenever one exists under the same ID; then merge
the subgraph's edges. -/
def MergeSubgraph (st : LoaderState) (new : Graph) (subgraph : Graph) : Graph :=
  let g2 := subgraph.nodes.foldl
    (fun (acc : Graph) node =>
      match st.graph.GetByID node.id with
      | some exist =>
        match exist.kind, node.kind with
        | NodeKind.component _, NodeKind.component _ =>
          acc.Add { exist with block := node.block }
        | _, _ => acc.Add node
      | none => acc.Add node)
    new
  g2.MergeEdges subgraph

/-- The effect of one `populateComponentNodes` iteration past the
duplicate and reuse checks (label check, declare-template instantiation,
registry lookup). -/
def populateComponentStep (env : LoaderEnv) (templates : List (String × Graph))
    (st : LoaderState) (g : Graph) (block : BlockStmt) :
    Graph × LoaderState × Diags :=
  let id := blockID block
  let componentName := joinName block.name
  if block.label = "" then
    (g, st, [⟨Severity.error, DiagKind.componentMustHaveLabel componentName⟩])
  else
    match (templates.find? (fun t => decide (t.1 = componentName))) with
    | some t =>
      let (clonedGraph, st2) := deepClone t.2 id st
      let g2 := MergeSubgraph st g clonedGraph
      let declareComponentNode : Node :=
        ⟨st2.freshRef, NodeKind.declareComponent, id, "", some block⟩
      let st3 := { st2 with freshRef := st2.freshRef + 1 }
      let g3 := g2.Add declareComponentNode
      let g4 := clonedGraph.nodes.foldl
        (fun (acc : Graph) n =>
          if n.nspace = id ∧ n.kind = NodeKind.argumentConfig then
            acc.AddEdge (n.id, declareComponentNode.id)
          else acc)
        g3
      (g4, st3, [])
    | none =>
      if env.registry componentName then
        (g.Add ⟨st.freshRef, NodeKind.component componentName, id, "", some block⟩,
         { st with freshRef := st.freshRef + 1 }, [])
      else
        (g, st, [⟨Severity.error, DiagKind.unrecognizedComponentName componentName⟩])

/-- `populateComponentNodes` (loader.go): per block — duplicate IDs are
diagnostics; an ID present in the previous generation (`st.graph`, never
modified by this loop) reuses that component node with its block updated;
blocks without a label are diagnostics; a name matching a registered
declare template instantiates the template (deep clone, merge, synthetic
declare-component node, argument wiring); otherwise the registry resolves
the name, unknown names being diagnostics. -/
def populateComponentNodes (env : LoaderEnv) (templates : List (String × Graph)) :
    List BlockStmt → LoaderState → Graph → List String →
    Graph × LoaderState × Diags
  | [], st, g, _ => (g, st, [])
  | block :: rest, st, g, blockMap =>
    let id := blockID block
    let step : Graph × LoaderState × Diags × List String :=
      if id ∈ blockMap then
        (g, st, [⟨Severity.error, DiagKind.componentRedeclared id⟩], blockMap)
      else
        let bm := blockMap ++ [id]
        match st.graph.GetByID id with
        | some exist =>
          match exist.kind with
          | NodeKind.component _ =>
            (g.Add { exist with block := some block }, st, [], bm)
          | _ =>
            let r := populateComponentStep env templates st g block
            (r.1, r.2.1, r.2.2, bm)
        | none =>
          let r := populateComponentStep env templates st g block
          (r.1, r.2.1, r.2.2, bm)
    let r := populateComponentNodes env templates rest step.2.1 step.1 step.2.2.2
    (r.1, r.2.1, step.2.2.1 ++ r.2.2)

/-- Modelled from the spec: `ComponentReferences` scans the node's
unevaluated expression tree for references to other nodes and yields one
edge target per reference that resolves to a node of the graph. -/
def ComponentReferences (n : Node) (g : Graph) : List String :=
  match n.block with
  | none => []
  | some b => b.refs.filter (fun r => (g.GetByID r).isSome)

/-- `wireGraphEdges` (loader.go): for every node outside a namespace, wire
service-dependency edges (unknown service references are diagnostics), then
one edge per component reference found in its expressions. -/
def wireGraphEdges (env : LoaderEnv) (g : Graph) : Graph × Diags :=
  g.nodes.foldl
    (fun (acc : Graph × Diags) n =>
      if n.nspace ≠ "" then acc
      else
        let acc2 :=
          if n.kind = NodeKind.service then
            (env.serviceDeps n.id).foldl
              (fun (a : Graph × Diags) depName =>
                if (a.1.GetByID depName).isSome then (a.1.AddEdge (n.id, depName), a.2)
                else (a.1, a.2 ++ [⟨Severity.error,
                  DiagKind.invalidServiceReference n.id depName⟩]))
              acc
          else acc
        (ComponentReferences n acc2.1).foldl
          (fun (a : Graph × Diags) ref => (a.1.AddEdge (n.id, ref), a.2))
          acc2)
    (g, [])

mutual
/-- Total syntactic size of a statement, bounding declare nesting depth. -/
def stmtSize : Stmt → Nat
  | Stmt.attr => 1
  | Stmt.block _ _ b _ => 1 + stmtsSize b
/-- Total syntactic size of a statement list. -/
def stmtsSize : Stmts → Nat
  | Stmts.nil => 0
  | Stmts.cons s r => stmtSize s + stmtsSize r
end

/-- Size of a list of blocks, used as recursion fuel for declare nesting. -/
def blocksSize (bs : List BlockStmt) : Nat :=
  (bs.map (fun b => 1 + stmtsSize b.body)).sum

/-- The body of `loadNewGraph` (loader.go), parameterized by the handler
that processes the sorted declare blocks (the recursive template
construction, whose recursion is bounded by the `fuel` argument of
`loadNewGraph` below): populate services (unless inside a declare), config
blocks, declare templates and components, wire the edges, validate, and on
success snapshot the pre-reduction graph into `originalGraph` before
reducing. -/
def buildWired (env : LoaderEnv)
    (declHandler : LoaderState → Graph → List (String × Graph) → List BlockStmt →
      Graph × LoaderState × List (String × Graph) × Diags)
    (st : LoaderState) (componentBlocks0 configBlocks declareBlocks : List BlockStmt)
    (inModule inDeclare : Bool) (parentT : List (String × Graph)) :
    Graph × LoaderState × Diags :=
  let nt := parentT
  let split := splitComponentBlocks env componentBlocks0
  let s1 :=
    if ! inDeclare then populateServiceNodes env st Graph.empty split.2
    else (Graph.empty, st, [])
  let s2 := populateConfigBlockNodes s1.2.1 s1.1 configBlocks inModule
  let sortRes := SortDeclareBlocks declareBlocks
  let s3 := declHandler s2.2.1 s2.1 nt (sortRes.1.getD [])
  let s4 := populateComponentNodes env s3.2.2.1 split.1 s3.2.1 s3.1 []
  let s5 := wireGraphEdges env s4.1
  (s5.1, s4.2.1, s1.2.2 ++ s2.2.2 ++ sortRes.2 ++ s3.2.2.2 ++ s4.2.2 ++ s5.2)

/-- Validation, snapshot and reduction on top of `buildWired`. -/
def loadNewGraphStep (env : LoaderEnv)
    (declHandler : LoaderState → Graph → List (String × Graph) → List BlockStmt →
      Graph × LoaderState × List (String × Graph) × Diags)
    (st : LoaderState) (componentBlocks0 configBlocks declareBlocks : List BlockStmt)
    (inModule inDeclare : Bool) (parentT : List (String × Graph)) :
    Graph × LoaderState × Diags :=
  let w := buildWired env declHandler st componentBlocks0 configBlocks declareBlocks
    inModule inDeclare parentT
  if w.1.hasCycle then
    (w.1, w.2.1, w.2.2 ++ [⟨Severity.error, DiagKind.graphCycle⟩])
  else
    (w.1.reduce, { w.2.1 with originalGraph := w.1.Clone }, w.2.2)

/-- `populateDeclareBlockNodes` (loader.go), parameterized by the recursive
graph construction: each declare block's body is categorized and built as
an independent sub-graph; failures skip the block, successes register the
template under the declare's label. -/
def populateDeclareBlockNodes
    (loadRec : LoaderState → List BlockStmt → List BlockStmt → List BlockStmt →
      List (String × Graph) → Graph × LoaderState × Diags)
    (st : LoaderState) (g : Graph) (nt : List (String × Graph))
    (blocks : List BlockStmt) : Graph × LoaderState × List (String × Graph) × Diags :=
  blocks.foldl
    (fun (acc : Graph × LoaderState × List (String × Graph) × Diags) block =>
      let c := CategorizeStatements block.body
      let r := loadRec acc.2.1 c.components c.configs c.declares acc.2.2.1
      if r.2.2 ≠ [] then
        (acc.1, r.2.1, acc.2.2.1, acc.2.2.2 ++ r.2.2)
      else
        (acc.1, r.2.1, acc.2.2.1 ++ [(block.label, r.1)], acc.2.2.2))
    (g, st, nt, [])

/-- `loadNewGraph` (loader.go).  The `fuel` bounds the declare-nesting
recursion depth (Go recurses on strictly smaller statement trees; `Apply`
passes `blocksSize declareBlocks + 1`, which exceeds any possible nesting
depth, so the zero-fuel handler — which registers no templates — is dead
code kept only to make the recursion structural). -/
def loadNewGraph (env : LoaderEnv) :
    Nat → LoaderState → List BlockStmt → List BlockStmt → List BlockStmt →
    Bool → Bool → List (String × Graph) → Graph × LoaderState × Diags
  | 0, st, componentBlocks0, configBlocks, declareBlocks, inModule, inDeclare, parentT =>
    loadNewGraphStep env
      (fun st g nt _ => (g, st, nt, []))
      st componentBlocks0 configBlocks declareBlocks inModule inDeclare parentT
  | fuel + 1, st, componentBlocks0, configBlocks, declareBlocks, inModule, inDeclare, parentT =>
    loadNewGraphStep env
      (fun st g nt blocks =>
        populateDeclareBlockNodes
          (fun st comps confs decls nt2 =>
            loadNewGraph env fuel st comps confs decls true true nt2)
          st g nt blocks)
      st componentBlocks0 configBlocks declareBlocks inModule inDeclare parentT

/-- `Apply` (loader.go): cache the module arguments, build and validate the
new graph, and — only when the diagnostics carry no error — evaluate every
node in topological order (collecting components, services and per-node
evaluation failures) and install the new graph, node lists and blocks.
Returns the final state, the diagnostics, and the IDs of the nodes
evaluated during the pass (empty when `Apply` returns early).  The
module-export notification at the end of `Apply` is modelled in the
export-notification section below. -/
def Apply (env : LoaderEnv) (st : LoaderState) (args : List String)
    (componentBlocks configBlocks declareBlocks : List BlockStmt) :
    LoaderState × Diags × List String :=
  let st0 := { st with cacheArgs := args }
  let r := loadNewGraph env (blocksSize declareBlocks + 1) st0
    componentBlocks configBlocks declareBlocks env.isModule false []
  let newGraph := r.1
  let st1 := r.2.1
  let diags := r.2.2
  if hasErrors diags then (st1, diags, [])
  else
    let order := newGraph.topoOrder
    let ev := order.foldl
      (fun (acc : List Node × List Node × Diags × List String) n =>
        let comps := if (match n.kind with
                         | NodeKind.component _ => true
                         | _ => false) then acc.1 ++ [n] else acc.1
        let svcs := if n.kind = NodeKind.service then acc.2.1 ++ [n] else acc.2.1
        let evDiags :=
          if env.evalFails n.id then
            acc.2.2.1 ++ [⟨Severity.error, DiagKind.failedToBuild n.id⟩]
          else acc.2.2.1
        (comps, svcs, evDiags, acc.2.2.2 ++ [n.id]))
      ([], [], [], [])
    ({ st1 with
        graph := newGraph,
        componentNodes := ev.1,
        serviceNodes := ev.2.1,
        blocks := componentBlocks },
     diags ++ ev.2.2.1, ev.2.2.2)

/-- Replace-or-append write of the `dependenciesToParentsMap` entry
(`map[dag.Node]*ComponentNode` assignment: last writer wins). -/
def mapSetStr (m : List (String × String)) (k v : String) : List (String × String) :=
  match m with
  | [] => [(k, v)]
  | p :: rest => if p.1 = k then (k, v) :: rest else p :: mapSetStr rest k v

/-- `EvaluateDependencies` (loader.go), reduced to the data it submits: for
each updated component the direct incoming nodes of the *installed* graph
`l.graph` are collected into dependent → originating-component entries
(last writer wins), each of which is then submitted to the worker pool
keyed by the dependent's node ID (the submit-with-retry loop is modelled in
the backoff section below; the export-cache refresh writes opaque values
not tracked here). -/
def EvaluateDependencies (st : LoaderState) (updatedIds : List String) :
    List (String × String) :=
  updatedIds.foldl
    (fun (acc : List (String × String)) parent =>
      (st.graph.incomingNodes parent).foldl
        (fun acc2 n => mapSetStr acc2 n.id parent) acc)
    []

/-- The declare handler `loadNewGraph` uses at positive fuel. -/
def declHandlerFuel (env : LoaderEnv) (fuel : Nat) :
    LoaderState → Graph → List (String × Graph) → List BlockStmt →
    Graph × LoaderState × List (String × Graph) × Diags :=
  fun st g nt blocks =>
    populateDeclareBlockNodes
      (fun st comps confs decls nt2 =>
        loadNewGraph env fuel st comps confs decls true true nt2)
      st g nt blocks

/-- What C1 claims the submitted set is: the same collection walked in the
non-reduced (pre-reduction) graph `l.originalGraph`. -/
def nonReducedDependents (st : LoaderState) (updatedIds : List String) :
    List (String × String) :=
  updatedIds.foldl
    (fun (acc : List (String × String)) parent =>
      (st.originalGraph.incomingNodes parent).foldl
        (fun acc2 n => mapSetStr acc2 n.id parent) acc)
    []

/-! ## The loader pipeline never writes the installed fields -/

/-- The fields that only `Apply`'s install step writes: the graph
construction threads only `freshRef`, `cacheArgs` and `originalGraph`
through the state. -/
def presInstall (a b : LoaderState) : Prop :=
  b.graph = a.graph ∧ b.componentNodes = a.componentNodes ∧
  b.serviceNodes = a.serviceNodes ∧ b.blocks = a.blocks

/-! ## Concrete examples for the loader claims -/

/-- A registry knowing exactly the component type `t`, no services, not a
module, all evaluations succeeding. -/
def exEnv : LoaderEnv := ⟨fun n => decide (n = "t"), [], fun _ => [], false, fun _ => false⟩

/-- `t "a" { }`. -/
def exCompA : BlockStmt := ⟨["t"], "a", Stmts.nil, []⟩

/-- `t "b" { … }` referencing `t.a`. -/
def exCompB : BlockStmt := ⟨["t"], "b", Stmts.nil, ["t.a"]⟩

/-- `t "c" { … }` referencing both `t.a` and `t.b` (the explicit direct
edge a transitive reduction drops). -/
def exCompC : BlockStmt := ⟨["t"], "c", Stmts.nil, ["t.a", "t.b"]⟩

/-- `nope "x" { }` with an unregistered component name. -/
def exCompBad : BlockStmt := ⟨["nope"], "x", Stmts.nil, []⟩

/-- `t "a" { … }` referencing `t.b`: half of a reference cycle. -/
def exCycCompA : BlockStmt := ⟨["t"], "a", Stmts.nil, ["t.b"]⟩

/-- `t "b" { … }` referencing `t.a`: the other half. -/
def exCycCompB : BlockStmt := ⟨["t"], "b", Stmts.nil, ["t.a"]⟩

/-- A previously installed component node for `t.a`, with `ref` 7. -/
def exPrevNode : Node := ⟨7, NodeKind.component "t", "t.a", "", none⟩

/-- A loader whose previous generation installed `exPrevNode`. -/
def exPrevState : LoaderState :=
  { NewLoader with graph := ⟨[exPrevNode], []⟩ }

/-- A namespaced subgraph node colliding with `exPrevNode`'s ID. -/
def exSubNode : Node := ⟨99, NodeKind.component "t", "t.a", "ns", some exCompA⟩

/-- The state installed by the successful `Apply` over the chain
`t.a ← t.b ← t.c` that also carries the explicit direct edge
`t.c → t.a`. -/
def stC1 : LoaderState := (Apply exEnv NewLoader [] [exCompA, exCompB, exCompC] [] []).1

/-! ## Module-export notification (concurrentEvalFn's write-locked section) -/

/-- The loader state the module-export notification reads and writes:
`moduleExportIndex` is the last export-change version notified to the
parent, and `notifications` records the versions passed to
`OnExportsChange`, most recent first. -/
structure NotifyState where
  moduleExportIndex : Int
  notifications : List Int
deriving DecidableEq

/-- `concurrentEvalFn` (loader.go): the write-locked critical section run
after an evaluation when operating as a module.  `cacheIdx` is the cache's
`ExportChangeIndex()` at execution time and `onExportsChange` whether the
parent callback is set.  The read-locked pre-check releases the read lock
before the write lock is acquired, so the decisive test is the recheck of
`l.cache.ExportChangeIndex() != l.moduleExportIndex` performed here, inside
the write lock, before invoking `OnExportsChange` and recording the new
index; the mutex serializes these sections, which the model renders as
sequential composition. -/
def writeLockedNotify (onExportsChange : Bool) (cacheIdx : Int)
    (st : NotifyState) : NotifyState :=
  if onExportsChange = true ∧ cacheIdx ≠ st.moduleExportIndex then
    { moduleExportIndex := cacheIdx, notifications := cacheIdx :: st.notifications }
  else st

/-- A serialized run of write-locked notification sections, one per
evaluation that reached the module-export step, each observing the cache's
export-change index at its own execution time. -/
def runNotify (onChange : Bool) : NotifyState → List Int → NotifyState
  | st, [] => st
  | st, e :: es => runNotify onChange (writeLockedNotify onChange e st) es

/-! ## Submission retry with exponential backoff (EvaluateDependencies) -/

/-- Modelled from the spec: the backoff configuration carries the minimum
and maximum retry intervals (here in milliseconds). -/
structure BackoffCfg where
  minBackoff : Nat
  maxBackoff : Nat
deriving DecidableEq

/-- The loader's backoff configuration (loader.go): `MinBackoff` one
millisecond, `MaxBackoff` ten seconds, no retry cap. -/
def backoffConfig : BackoffCfg := ⟨1, 10000⟩

/-- Modelled from the spec: each `Wait` doubles the delay, capped at the
configured maximum. -/
def nextBackoffDelay (cfg : BackoffCfg) (d : Nat) : Nat :=
  min (d * 2) cfg.maxBackoff

/-- The per-node submit loop of `EvaluateDependencies` (loader.go):
while the backoff is ongoing — the context not yet cancelled, modelled by
the predicate `c` over the current retry count — submit the node
(`s` giving each attempt's outcome); on failure log one retry line and
`Wait` (sleep the current delay, recorded in the returned list, increment
`NumRetries`, double the delay up to the maximum), on success break.
Returns (submitted?, final retry count, final delay, delays slept); the
`fuel` bounds the iterations so the recursion is structural. -/
def submitLoop (cfg : BackoffCfg) (c s : Nat → Bool) :
    Nat → Nat → Nat → Bool × Nat × Nat × List Nat
  | 0, r, d => (false, r, d, [])
  | fuel + 1, r, d =>
    if c r = true then (false, r, d, [])
    else if s r = true then (true, r, d, [])
    else
      let k := submitLoop cfg c s fuel (r + 1) (nextBackoffDelay cfg d)
      (k.1, k.2.1, k.2.2.1, d :: k.2.2.2)

theorem weight_setV_pred (m : IntMap) (k : String) :
    weight (setV m k (getD m k - 1)) + (getD m k).toNat ≤ weight m + (getD m k - 1).toNat := by
  induction m with
  | nil => simp [getD, setV, weight]
  | cons p rest ih =>
    by_cases hp : p.1 = k
    · simp only [setV, getD, if_pos hp, weight, List.map_cons, List.sum_cons]
      omega
    · simp only [setV, getD, if_neg hp, weight, List.map_cons, List.sum_cons] at ih ⊢
      omega

theorem processEdges_measure (targets : List String) (indeg : IntMap) (queue : List String) :
    weight (processEdges targets indeg queue).1 + (processEdges targets indeg queue).2.length ≤
      weight indeg + queue.length := by
  induction targets generalizing indeg queue with
  | nil => simp [processEdges]
  | cons d ds ih =>
    simp only [processEdges]
    refine le_trans (ih _ _) ?_
    have hw := weight_setV_pred indeg d
    by_cases h : getD indeg d - 1 = 0
    · rw [if_pos h]
      simp only [List.length_append, List.length_cons, List.length_nil]
      omega
    · rw [if_neg h]
      omega

theorem kahnLoop_fuel_irrelevant (adj : String → List String) :
    ∀ (f1 f2 : Nat) (indeg : IntMap) (queue : List String),
      weight indeg + queue.length ≤ f1 → weight indeg + queue.length ≤ f2 →
      kahnLoop adj f1 indeg queue = kahnLoop adj f2 indeg queue := by
  intro f1
  induction f1 with
  | zero =>
    intro f2 indeg queue h1 _
    have hq : queue = [] := List.eq_nil_of_length_eq_zero (by omega)
    subst hq
    cases f2 <;> simp [kahnLoop]
  | succ f1 ih =>
    intro f2 indeg queue h1 h2
    cases queue with
    | nil => cases f2 <;> simp [kahnLoop]
    | cons label rest =>
      have hm := processEdges_measure (adj label) indeg rest
      simp only [List.length_cons] at h1 h2
      cases f2 with
      | zero => omega
      | succ f2 =>
        simp only [kahnLoop]
        rw [ih f2 _ _ (by omega) (by omega)]

theorem occ_pos_iff_mem (x : String) (l : List String) : 0 < occ x l ↔ x ∈ l := by
  induction l with
  | nil => simp [occ]
  | cons y r ih =>
    simp only [occ, List.mem_cons]
    by_cases h : y = x
    · simp only [if_pos h]
      constructor
      · intro _; exact Or.inl h.symm
      · intro _; omega
    · simp only [if_neg h, Nat.zero_add]
      constructor
      · intro hp; exact Or.inr (ih.1 hp)
      · rintro (hx | hx)
        · exact absurd hx.symm h
        · exact ih.2 hx

theorem cntFrom_le_cntIn (edges : List (String × String)) (emitted : List String) (t : String) :
    cntFrom edges emitted t ≤ cntIn edges t := by
  induction edges with
  | nil => simp [cntFrom, cntIn]
  | cons e r ih =>
    simp only [cntFrom, cntIn]
    by_cases h2 : e.2 = t
    · by_cases h1 : e.1 ∈ emitted
      · simp only [if_pos (And.intro h2 h1), if_pos h2]; omega
      · simp only [if_neg (fun hc : e.2 = t ∧ e.1 ∈ emitted => h1 hc.2), if_pos h2]; omega
    · simp only [if_neg (fun hc : e.2 = t ∧ e.1 ∈ emitted => h2 hc.1), if_neg h2]; omega

theorem cntIn_eq_cntFrom_iff (edges : List (String × String)) (emitted : List String)
    (t : String) :
    cntIn edges t = cntFrom edges emitted t ↔ ∀ e ∈ edges, e.2 = t → e.1 ∈ emitted := by
  induction edges with
  | nil => simp [cntFrom, cntIn]
  | cons e r ih =>
    have hle := cntFrom_le_cntIn r emitted t
    simp only [cntFrom, cntIn, List.mem_cons]
    by_cases h2 : e.2 = t
    · by_cases h1 : e.1 ∈ emitted
      · simp only [if_pos (And.intro h2 h1), if_pos h2]
        constructor
        · rintro h f (hf | hf)
          · intro _; subst hf; exact h1
          · exact (ih.1 (by omega)) f hf
        · intro h
          have h0 : cntIn r t = cntFrom r emitted t := ih.2 (fun f hf => h f (Or.inr hf))
          omega
      · simp only [if_neg (fun hc : e.2 = t ∧ e.1 ∈ emitted => h1 hc.2), if_pos h2]
        constructor
        · intro h; omega
        · intro h; exact absurd (h e (Or.inl rfl) h2) h1
    · simp only [if_neg (fun hc : e.2 = t ∧ e.1 ∈ emitted => h2 hc.1), if_neg h2,
        Nat.zero_add, ih]
      constructor
      · rintro h f (hf | hf)
        · intro ht; subst hf; exact absurd ht h2
        · exact h f hf
      · intro h f hf
        exact h f (Or.inr hf)

theorem cntEdge_pos_iff_mem (edges : List (String × String)) (s t : String) :
    0 < cntEdge edges s t ↔ (s, t) ∈ edges := by
  induction edges with
  | nil => simp [cntEdge]
  | cons e r ih =>
    simp only [cntEdge, List.mem_cons]
    by_cases h : e.1 = s ∧ e.2 = t
    · simp only [if_pos h]
      constructor
      · intro _
        left
        obtain ⟨h1, h2⟩ := h
        exact (Prod.ext h1.symm h2.symm : (s, t) = e)
      · intro _; omega
    · simp only [if_neg h, Nat.zero_add, ih]
      constructor
      · exact Or.inr
      · rintro (he | he)
        · exact absurd ⟨(congrArg Prod.fst he).symm, (congrArg Prod.snd he).symm⟩ h
        · exact he

theorem occ_adjOf (edges : List (String × String)) (l t : String) :
    occ t (adjOf edges l) = cntEdge edges l t := by
  induction edges with
  | nil => simp [adjOf, cntEdge, List.filterMap, occ]
  | cons e r ih =>
    by_cases h1 : e.1 = l
    · simp only [adjOf, List.filterMap_cons, if_pos h1] at ih ⊢
      by_cases h2 : e.2 = t
      · simp only [occ, if_pos h2, if_pos (And.intro h1 h2), cntEdge, ih]
      · simp only [occ, if_neg h2, if_neg (fun hc : e.1 = l ∧ e.2 = t => h2 hc.2),
          cntEdge, ih]
    · simp only [adjOf, List.filterMap_cons, if_neg h1] at ih ⊢
      simp only [cntEdge, if_neg (fun hc : e.1 = l ∧ e.2 = t => h1 hc.1), Nat.zero_add, ih]

theorem cntFrom_concat (edges : List (String × String)) (emitted : List String)
    (l t : String) (hl : l ∉ emitted) :
    cntFrom edges (emitted ++ [l]) t = cntFrom edges emitted t + cntEdge edges l t := by
  induction edges with
  | nil => simp [cntFrom, cntEdge]
  | cons e r ih =>
    simp only [cntFrom, cntEdge, ih]
    by_cases h2 : e.2 = t
    · by_cases h1 : e.1 ∈ emitted
      · have hne : ¬ e.1 = l := fun hc => hl (hc ▸ h1)
        have hm : e.1 ∈ emitted ++ [l] := List.mem_append.2 (Or.inl h1)
        simp only [if_pos (And.intro h2 hm), if_pos (And.intro h2 h1),
          if_neg (fun hc : e.1 = l ∧ e.2 = t => hne hc.1)]
        omega
      · by_cases hel : e.1 = l
        · have hm : e.1 ∈ emitted ++ [l] := List.mem_append.2 (Or.inr (by simp [hel]))
          simp only [if_pos (And.intro h2 hm), if_pos (And.intro hel h2),
            if_neg (fun hc : e.2 = t ∧ e.1 ∈ emitted => h1 hc.2)]
          omega
        · have hm : e.1 ∉ emitted ++ [l] := by simp [h1, hel]
          simp only [if_neg (fun hc : e.2 = t ∧ e.1 ∈ emitted ++ [l] => hm hc.2),
            if_neg (fun hc : e.2 = t ∧ e.1 ∈ emitted => h1 hc.2),
            if_neg (fun hc : e.1 = l ∧ e.2 = t => hel hc.1)]
          omega
    · simp only [if_neg (fun hc : e.2 = t ∧ e.1 ∈ emitted ++ [l] => h2 hc.1),
        if_neg (fun hc : e.2 = t ∧ e.1 ∈ emitted => h2 hc.1),
        if_neg (fun hc : e.1 = l ∧ e.2 = t => h2 hc.2)]
      omega

theorem getD_setV (m : IntMap) (k : String) (v : Int) (x : String) :
    getD (setV m k v) x = if x = k then v else getD m x := by
  induction m with
  | nil =>
    simp only [setV, getD]
    by_cases h : k = x
    · simp [h]
    · have hxk : ¬x = k := fun hc => h hc.symm
      simp [h, hxk]
  | cons p rest ih =>
    simp only [setV]
    by_cases hp : p.1 = k
    · simp only [if_pos hp, getD]
      by_cases hkx : k = x
      · simp [hkx]
      · have hxk : ¬x = k := fun hc => hkx hc.symm
        have hpx : ¬p.1 = x := by rw [hp]; exact hkx
        simp [hkx, hxk, hpx]
    · simp only [if_neg hp, getD, ih]
      by_cases hpx : p.1 = x
      · have hxk : ¬x = k := fun hc => hp (by rw [hpx, hc])
        simp [hpx, hxk]
      · simp [hpx]

theorem keys_setV (m : IntMap) (k : String) (v : Int) :
    (setV m k v).map Prod.fst =
      if k ∈ m.map Prod.fst then m.map Prod.fst else m.map Prod.fst ++ [k] := by
  induction m with
  | nil => simp [setV]
  | cons p rest ih =>
    by_cases hp : p.1 = k
    · simp [setV, hp]
    · have : ¬ k = p.1 := fun hc => hp hc.symm
      simp only [setV, if_neg hp, List.map_cons, List.mem_cons, this, false_or]
      by_cases hm : k ∈ rest.map Prod.fst <;> simp [hm, ih]

theorem getD_eq_zero_of_not_mem_keys (m : IntMap) (x : String)
    (h : x ∉ m.map Prod.fst) : getD m x = 0 := by
  induction m with
  | nil => simp [getD]
  | cons p rest ih =>
    simp only [List.map_cons, List.mem_cons] at h
    push_neg at h
    have : ¬ p.1 = x := fun hc => h.1 hc.symm
    simp [getD, this, ih h.2]

theorem getD_of_entry (m : IntMap) (x : String) (v : Int)
    (hmem : (x, v) ∈ m) (hnd : (m.map Prod.fst).Nodup) : getD m x = v := by
  induction m with
  | nil => simp at hmem
  | cons p rest ih =>
    simp only [List.map_cons, List.nodup_cons] at hnd
    rcases List.mem_cons.1 hmem with h | h
    · rw [← h]; simp [getD]
    · have hx : x ∈ rest.map Prod.fst := List.mem_map.2 ⟨(x, v), h, rfl⟩
      have : ¬ p.1 = x := fun hc => hnd.1 (hc ▸ hx)
      simp [getD, this, ih h hnd.2]

theorem mem_pos_keys_iff (m : IntMap) (x : String) (hnd : (m.map Prod.fst).Nodup) :
    x ∈ (m.filter (fun p => decide (0 < p.2))).map Prod.fst ↔ 0 < getD m x := by
  constructor
  · intro h
    obtain ⟨p, hp, hpx⟩ := List.mem_map.1 h
    obtain ⟨hpm, hpv⟩ := List.mem_filter.1 hp
    have hv : (0 : Int) < p.2 := of_decide_eq_true hpv
    have hg : getD m x = p.2 := by
      subst hpx; exact getD_of_entry m p.1 p.2 (by cases p; exact hpm) hnd
    omega
  · intro h
    have hx : x ∈ m.map Prod.fst := by
      by_contra hc
      rw [getD_eq_zero_of_not_mem_keys m x hc] at h
      omega
    obtain ⟨p, hpm, hpx⟩ := List.mem_map.1 hx
    have hg : getD m x = p.2 := by
      subst hpx; exact getD_of_entry m p.1 p.2 (by cases p; exact hpm) hnd
    refine List.mem_map.2 ⟨p, List.mem_filter.2 ⟨hpm, ?_⟩, hpx⟩
    exact decide_eq_true (by omega)

theorem nodup_append_singleton {l : List String} {a : String}
    (h : l.Nodup) (ha : a ∉ l) : (l ++ [a]).Nodup := by
  rw [List.nodup_append]
  refine ⟨h, List.nodup_singleton a, fun x hx hxa => ?_⟩
  simp only [List.mem_singleton] at hxa
  exact ha (hxa ▸ hx)

/-! ## Characterization of `processEdges` -/

theorem processEdges_spec (targets : List String) (indeg : IntMap) (queue : List String) :
    (∀ x, getD (processEdges targets indeg queue).1 x = getD indeg x - (occ x targets : Int)) ∧
    ∃ fresh : List String,
      (processEdges targets indeg queue).2 = queue ++ fresh ∧ fresh.Nodup ∧
      (∀ x, x ∈ fresh ↔ (1 ≤ getD indeg x ∧ getD indeg x ≤ (occ x targets : Int))) := by
  induction targets generalizing indeg queue with
  | nil =>
    refine ⟨fun x => by simp [processEdges, occ], [], by simp [processEdges],
      List.nodup_nil, fun x => ?_⟩
    simp only [List.not_mem_nil, false_iff, not_and, occ]
    intro h1
    omega
  | cons d ds ih =>
    simp only [processEdges]
    by_cases h : getD indeg d - 1 = 0
    · rw [if_pos h]
      obtain ⟨ihdeg, fresh1, hq, hnd, hmem⟩ := ih (setV indeg d (getD indeg d - 1)) (queue ++ [d])
      refine ⟨?_, d :: fresh1, ?_, ?_, ?_⟩
      · intro x
        rw [ihdeg x, getD_setV]
        by_cases hx : x = d
        · subst hx
          simp only [if_pos rfl, occ, if_pos rfl]
          push_cast
          omega
        · simp only [if_neg hx, occ, if_neg (fun hc : d = x => hx hc.symm)]
          push_cast
          omega
      · rw [hq, List.append_assoc, List.singleton_append]
      · refine List.nodup_cons.2 ⟨fun hd => ?_, hnd⟩
        have h1 := ((hmem d).1 hd).1
        rw [getD_setV, if_pos rfl] at h1
        omega
      · intro x
        constructor
        · intro hx
          rcases List.mem_cons.1 hx with hx | hx
          · subst hx
            simp only [occ, if_pos rfl]
            push_cast
            omega
          · have hx1 := (hmem x).1 hx
            rw [getD_setV] at hx1
            by_cases hxd : x = d
            · subst hxd
              rw [if_pos rfl] at hx1
              simp only [occ, if_pos rfl]
              push_cast at hx1 ⊢
              omega
            · rw [if_neg hxd] at hx1
              simp only [occ, if_neg (fun hc : d = x => hxd hc.symm)]
              push_cast at hx1 ⊢
              omega
        · intro hx
          by_cases hxd : x = d
          · subst hxd
            exact List.mem_cons_self _ _
          · refine List.mem_cons_of_mem _ ((hmem x).2 ?_)
            rw [getD_setV, if_neg hxd]
            simp only [occ, if_neg (fun hc : d = x => hxd hc.symm)] at hx
            push_cast at hx ⊢
            omega
    · rw [if_neg h]
      obtain ⟨ihdeg, fresh1, hq, hnd, hmem⟩ := ih (setV indeg d (getD indeg d - 1)) queue
      refine ⟨?_, fresh1, hq, hnd, ?_⟩
      · intro x
        rw [ihdeg x, getD_setV]
        by_cases hx : x = d
        · subst hx
          simp only [if_pos rfl, occ, if_pos rfl]
          push_cast
          omega
        · simp only [if_neg hx, occ, if_neg (fun hc : d = x => hx hc.symm)]
          push_cast
          omega
      · intro x
        rw [hmem x, getD_setV]
        by_cases hxd : x = d
        · subst hxd
          rw [if_pos rfl]
          simp only [occ, if_pos rfl]
          push_cast
          omega
        · rw [if_neg hxd]
          simp only [occ, if_neg (fun hc : d = x => hxd hc.symm)]
          push_cast
          omega

theorem processEdges_keys (targets : List String) (indeg : IntMap) (queue : List String) :
    (∀ x, x ∈ (processEdges targets indeg queue).1.map Prod.fst →
       x ∈ indeg.map Prod.fst ∨ x ∈ targets) ∧
    ((indeg.map Prod.fst).Nodup → ((processEdges targets indeg queue).1.map Prod.fst).Nodup) := by
  induction targets generalizing indeg queue with
  | nil => exact ⟨fun x h => Or.inl h, fun h => h⟩
  | cons d ds ih =>
    simp only [processEdges]
    have step : ∀ q, (∀ x, x ∈ (processEdges ds (setV indeg d (getD indeg d - 1)) q).1.map Prod.fst →
          x ∈ indeg.map Prod.fst ∨ x ∈ d :: ds) ∧
        ((indeg.map Prod.fst).Nodup →
          ((processEdges ds (setV indeg d (getD indeg d - 1)) q).1.map Prod.fst).Nodup) := by
      intro q
      obtain ⟨ihsub, ihnd⟩ := ih (setV indeg d (getD indeg d - 1)) q
      constructor
      · intro x hx
        rcases ihsub x hx with hx1 | hx1
        · rw [keys_setV] at hx1
          by_cases hm : d ∈ indeg.map Prod.fst
          · rw [if_pos hm] at hx1
            exact Or.inl hx1
          · rw [if_neg hm] at hx1
            rcases List.mem_append.1 hx1 with hx2 | hx2
            · exact Or.inl hx2
            · simp only [List.mem_singleton] at hx2
              subst hx2
              exact Or.inr (List.mem_cons_self _ _)
        · exact Or.inr (List.mem_cons_of_mem _ hx1)
      · intro hnd
        apply ihnd
        rw [keys_setV]
        by_cases hm : d ∈ indeg.map Prod.fst
        · rw [if_pos hm]; exact hnd
        · rw [if_neg hm]
          exact nodup_append_singleton hnd hm
    by_cases h : getD indeg d - 1 = 0
    · rw [if_pos h]; exact step (queue ++ [d])
    · rw [if_neg h]; exact step queue

theorem append_singleton_eq_split {α : Type} (xs l1 l2 : List α) (a b : α)
    (h : xs ++ [a] = l1 ++ b :: l2) :
    (l1 = xs ∧ b = a ∧ l2 = []) ∨ ∃ l2p, l2 = l2p ++ [a] ∧ xs = l1 ++ b :: l2p := by
  rcases List.eq_nil_or_concat l2 with hl2 | ⟨l2p, c, hl2⟩
  · subst hl2
    left
    have h2 : xs ++ [a] = l1 ++ [b] := h
    have h3 := List.append_inj' h2 (by simp)
    refine ⟨h3.1.symm, ?_, rfl⟩
    have := h3.2
    simp only [List.cons.injEq] at this
    exact this.1.symm
  · subst hl2
    right
    have h2 : xs ++ [a] = (l1 ++ b :: l2p) ++ [c] := by
      rw [h]
      simp [List.concat_eq_append]
    have h3 := List.append_inj' h2 (by simp)
    have hac : a = c := by
      have := h3.2
      simp only [List.cons.injEq] at this
      exact this.1
    exact ⟨l2p, by rw [List.concat_eq_append, hac], h3.1⟩

theorem kahnInv_step {edges : List (String × String)} {labels : List String}
    (ctx : EdgeCtx edges labels)
    {emitted rest : List String} {indeg : IntMap} {l : String}
    (inv : KahnInv edges labels emitted (l :: rest) indeg) :
    KahnInv edges labels (emitted ++ [l])
      (processEdges (adjOf edges l) indeg rest).2
      (processEdges (adjOf edges l) indeg rest).1 := by
  obtain ⟨spec1, fresh, hq, hfnd, hfmem⟩ := processEdges_spec (adjOf edges l) indeg rest
  obtain ⟨keys1, keys2⟩ := processEdges_keys (adjOf edges l) indeg rest
  have hlq : l ∈ l :: rest := List.mem_cons_self _ _
  have hlL : l ∈ labels := inv.subQ l hlq
  have hlE : l ∉ emitted := inv.disj l hlq
  have hrestNd : rest.Nodup := (List.nodup_cons.1 inv.nodupQ).2
  have hlrest : l ∉ rest := (List.nodup_cons.1 inv.nodupQ).1
  have hzero_l : cntIn edges l = cntFrom edges emitted l :=
    (inv.zeroIff l hlL).1 (Or.inr hlq)
  have hsrc_l : ∀ e ∈ edges, e.2 = l → e.1 ∈ emitted :=
    (cntIn_eq_cntFrom_iff edges emitted l).1 hzero_l
  have hcnt : ∀ t, cntFrom edges (emitted ++ [l]) t
      = cntFrom edges emitted t + cntEdge edges l t :=
    fun t => cntFrom_concat edges emitted l t hlE
  have hk_le : ∀ t, cntFrom edges emitted t + cntEdge edges l t ≤ cntIn edges t := by
    intro t
    rw [← hcnt t]
    exact cntFrom_le_cntIn edges (emitted ++ [l]) t
  have hfresh : ∀ x, x ∈ fresh ↔
      (0 < cntEdge edges l x ∧ cntIn edges x = cntFrom edges emitted x + cntEdge edges l x) := by
    intro x
    rw [hfmem x, inv.deg x, occ_adjOf edges l x]
    have h1 := hk_le x
    have h2 := cntFrom_le_cntIn edges emitted x
    constructor
    · rintro ⟨ha, hb⟩
      constructor <;> omega
    · rintro ⟨ha, hb⟩
      constructor <;> omega
  have hfreshE : ∀ x ∈ fresh, x ∉ emitted := by
    intro x hx hxe
    have h1 := ((hfmem x).1 hx).1
    have hxL : x ∈ labels := inv.subE x hxe
    have h0 := (inv.zeroIff x hxL).1 (Or.inl hxe)
    rw [inv.deg x] at h1
    omega
  have hfreshQ : ∀ x ∈ fresh, x ∉ l :: rest := by
    intro x hx hxq
    have h1 := ((hfmem x).1 hx).1
    have hxL : x ∈ labels := inv.subQ x hxq
    have h0 := (inv.zeroIff x hxL).1 (Or.inr hxq)
    rw [inv.deg x] at h1
    omega
  have hfreshL : ∀ x ∈ fresh, x ∈ labels := by
    intro x hx
    have h1 := (hfresh x).1 hx
    exact ctx.tgtMem _ ((cntEdge_pos_iff_mem edges l x).1 h1.1)
  rw [hq]
  refine ⟨?_, ?_, ?_, ?_, ?_, ?_, ?_, ?_, ?_, ?_⟩
  · exact nodup_append_singleton inv.nodupE hlE
  · rw [List.nodup_append]
    exact ⟨hrestNd, hfnd, fun x hxr hxf => (hfreshQ x hxf) (List.mem_cons_of_mem _ hxr)⟩
  · intro x hx hxe
    rcases List.mem_append.1 hx with hx1 | hx1
    · rcases List.mem_append.1 hxe with hx2 | hx2
      · exact (inv.disj x (List.mem_cons_of_mem _ hx1)) hx2
      · simp only [List.mem_singleton] at hx2
        exact hlrest (hx2 ▸ hx1)
    · rcases List.mem_append.1 hxe with hx2 | hx2
      · exact (hfreshE x hx1) hx2
      · simp only [List.mem_singleton] at hx2
        exact (hfreshQ x hx1) (hx2 ▸ List.mem_cons_self _ _)
  · intro x hx
    rcases List.mem_append.1 hx with hx1 | hx1
    · exact inv.subE x hx1
    · simp only [List.mem_singleton] at hx1
      exact hx1 ▸ hlL
  · intro x hx
    rcases List.mem_append.1 hx with hx1 | hx1
    · exact inv.subQ x (List.mem_cons_of_mem _ hx1)
    · exact hfreshL x hx1
  · intro t
    rw [spec1 t, inv.deg t, occ_adjOf edges l t, hcnt t]
    push_cast
    ring
  · intro x hxL
    rw [hcnt x]
    constructor
    · intro hmem
      have h1 := hk_le x
      rcases hmem with hmem | hmem
      · rcases List.mem_append.1 hmem with h2 | h2
        · have h0 := (inv.zeroIff x hxL).1 (Or.inl h2)
          omega
        · simp only [List.mem_singleton] at h2
          subst h2
          omega
      · rcases List.mem_append.1 hmem with h2 | h2
        · have h0 := (inv.zeroIff x hxL).1 (Or.inr (List.mem_cons_of_mem _ h2))
          omega
        · exact ((hfresh x).1 h2).2
    · intro hx
      by_cases hpos : 0 < cntEdge edges l x
      · exact Or.inr (List.mem_append.2 (Or.inr ((hfresh x).2 ⟨hpos, hx⟩)))
      · have hz : cntEdge edges l x = 0 := by omega
        rw [hz] at hx
        have h0 := (inv.zeroIff x hxL).2 (by omega)
        rcases h0 with h0 | h0
        · exact Or.inl (List.mem_append.2 (Or.inl h0))
        · rcases List.mem_cons.1 h0 with h1 | h1
          · subst h1
            exact Or.inl (List.mem_append.2 (Or.inr (List.mem_singleton.2 rfl)))
          · exact Or.inr (List.mem_append.2 (Or.inl h1))
  · intro e he l1 l2 hsplit
    rcases append_singleton_eq_split emitted l1 l2 l e.2 hsplit with
      ⟨h1, h2, _⟩ | ⟨l2p, _, h2⟩
    · subst h1
      exact hsrc_l e he h2
    · exact inv.topo e he l1 l2p h2
  · exact keys2 inv.keysNd
  · intro x hx
    rcases keys1 x hx with h1 | h1
    · exact inv.keysSub x h1
    · have : 0 < occ x (adjOf edges l) := (occ_pos_iff_mem x _).2 h1
      rw [occ_adjOf] at this
      exact ctx.tgtMem _ ((cntEdge_pos_iff_mem edges l x).1 this)

theorem cntFrom_nil_emitted (edges : List (String × String)) (t : String) :
    cntFrom edges [] t = 0 := by
  induction edges with
  | nil => simp [cntFrom]
  | cons e r ih => simp [cntFrom, ih]

theorem incrAll_aux (edges : List (String × String)) (t : String) :
    ∀ m0 : IntMap,
      getD (edges.foldl (fun m e => setV m e.2 (getD m e.2 + 1)) m0) t =
        getD m0 t + (cntIn edges t : Int) := by
  induction edges with
  | nil => intro m0; simp [cntIn]
  | cons e r ih =>
    intro m0
    simp only [List.foldl_cons, cntIn]
    rw [ih, getD_setV]
    by_cases ht : t = e.2
    · subst ht
      rw [if_pos rfl, if_pos rfl]
      push_cast
      omega
    · rw [if_neg ht, if_neg (fun hc : e.2 = t => ht hc.symm)]
      push_cast
      omega

theorem getD_incrAll (edges : List (String × String)) (t : String) :
    getD (incrAll edges) t = (cntIn edges t : Int) := by
  have h := incrAll_aux edges t []
  simpa [incrAll, getD] using h

theorem incrAll_keys_aux (edges : List (String × String)) :
    ∀ m0 : IntMap,
      (∀ x, x ∈ (edges.foldl (fun m e => setV m e.2 (getD m e.2 + 1)) m0).map Prod.fst →
        x ∈ m0.map Prod.fst ∨ ∃ e ∈ edges, e.2 = x) ∧
      ((m0.map Prod.fst).Nodup →
        ((edges.foldl (fun m e => setV m e.2 (getD m e.2 + 1)) m0).map Prod.fst).Nodup) := by
  induction edges with
  | nil => exact fun m0 => ⟨fun x h => Or.inl h, fun h => h⟩
  | cons e r ih =>
    intro m0
    simp only [List.foldl_cons]
    obtain ⟨ihsub, ihnd⟩ := ih (setV m0 e.2 (getD m0 e.2 + 1))
    constructor
    · intro x hx
      rcases ihsub x hx with h1 | h1
      · rw [keys_setV] at h1
        by_cases hm : e.2 ∈ m0.map Prod.fst
        · rw [if_pos hm] at h1
          exact Or.inl h1
        · rw [if_neg hm] at h1
          rcases List.mem_append.1 h1 with h2 | h2
          · exact Or.inl h2
          · simp only [List.mem_singleton] at h2
            exact Or.inr ⟨e, List.mem_cons_self _ _, h2.symm⟩
      · obtain ⟨f, hf, hfx⟩ := h1
        exact Or.inr ⟨f, List.mem_cons_of_mem _ hf, hfx⟩
    · intro hnd
      apply ihnd
      rw [keys_setV]
      by_cases hm : e.2 ∈ m0.map Prod.fst
      · rw [if_pos hm]; exact hnd
      · rw [if_neg hm]
        exact nodup_append_singleton hnd hm

theorem kahnInv_init {edges : List (String × String)} {labels : List String}
    (ctx : EdgeCtx edges labels) :
    KahnInv edges labels []
      (labels.filter (fun l => decide (getD (incrAll edges) l = 0)))
      (incrAll edges) := by
  obtain ⟨keysub, keynd⟩ := incrAll_keys_aux edges []
  refine ⟨List.nodup_nil, List.Nodup.filter _ ctx.nodupL, ?_, ?_, ?_, ?_, ?_, ?_, ?_, ?_⟩
  · intro x _ hx
    simp at hx
  · intro x hx
    simp at hx
  · intro x hx
    exact (List.mem_filter.1 hx).1
  · intro t
    rw [getD_incrAll, cntFrom_nil_emitted]
    push_cast
    ring
  · intro l hl
    simp only [List.not_mem_nil, false_or, List.mem_filter, hl, true_and,
      decide_eq_true_eq, getD_incrAll, cntFrom_nil_emitted]
    constructor
    · intro h
      exact_mod_cast h
    · intro h
      exact_mod_cast h
  · intro e _ l1 l2 hsplit
    exact absurd hsplit (by simp)
  · exact keynd List.nodup_nil
  · intro x hx
    rcases keysub x hx with h1 | h1
    · simp at h1
    · obtain ⟨e, he, hex⟩ := h1
      exact hex ▸ ctx.tgtMem e he

theorem kahnLoop_inv_aux {edges : List (String × String)} {labels : List String}
    (ctx : EdgeCtx edges labels) :
    ∀ (fuel : Nat) (indeg : IntMap) (queue : List String),
      weight indeg + queue.length ≤ fuel →
      ∀ emitted, KahnInv edges labels emitted queue indeg →
      KahnInv edges labels (emitted ++ (kahnLoop (adjOf edges) fuel indeg queue).1) []
        (kahnLoop (adjOf edges) fuel indeg queue).2 := by
  intro fuel
  induction fuel with
  | zero =>
    intro indeg queue hb emitted inv
    have hq : queue = [] := List.eq_nil_of_length_eq_zero (by omega)
    subst hq
    simpa [kahnLoop] using inv
  | succ n ihn =>
    intro indeg queue hb emitted inv
    cases queue with
    | nil => simpa [kahnLoop] using inv
    | cons l rest =>
      have hstep := kahnInv_step ctx inv
      have hmeas := processEdges_measure (adjOf edges l) indeg rest
      have hb2 : weight (processEdges (adjOf edges l) indeg rest).1 +
          (processEdges (adjOf edges l) indeg rest).2.length ≤ n := by
        simp only [List.length_cons] at hb
        omega
      have hrec := ihn _ _ hb2 (emitted ++ [l]) hstep
      simp only [kahnLoop]
      simpa [List.append_assoc] using hrec

/-- The invariant holds of the final state of the Kahn phase. -/
theorem kahn_run_inv {edges : List (String × String)} {labels : List String}
    (ctx : EdgeCtx edges labels) :
    KahnInv edges labels
      (kahnLoop (adjOf edges)
        (weight (incrAll edges) +
          (labels.filter (fun l => decide (getD (incrAll edges) l = 0))).length)
        (incrAll edges)
        (labels.filter (fun l => decide (getD (incrAll edges) l = 0)))).1 []
      (kahnLoop (adjOf edges)
        (weight (incrAll edges) +
          (labels.filter (fun l => decide (getD (incrAll edges) l = 0))).length)
        (incrAll edges)
        (labels.filter (fun l => decide (getD (incrAll edges) l = 0)))).2 := by
  have h := kahnLoop_inv_aux ctx
    (weight (incrAll edges) +
      (labels.filter (fun l => decide (getD (incrAll edges) l = 0))).length)
    (incrAll edges) (labels.filter (fun l => decide (getD (incrAll edges) l = 0)))
    (Nat.le_refl _) [] (kahnInv_init ctx)
  simpa using h

/-! ## From `SortDeclareBlocks` inputs to the invariant context -/

theorem declareLabels_aux (blocks : List BlockStmt) :
    ∀ acc : List String,
      (∀ x, x ∈ blocks.foldl
          (fun acc b => if b.label ∈ acc then acc else acc ++ [b.label]) acc ↔
        x ∈ acc ∨ ∃ b ∈ blocks, b.label = x) ∧
      (acc.Nodup → (blocks.foldl
          (fun acc b => if b.label ∈ acc then acc else acc ++ [b.label]) acc).Nodup) := by
  induction blocks with
  | nil =>
    intro acc
    simp
  | cons b r ih =>
    intro acc
    simp only [List.foldl_cons]
    constructor
    · intro x
      rw [(ih _).1 x]
      have hstep : ∀ y, y ∈ (if b.label ∈ acc then acc else acc ++ [b.label]) ↔
          y ∈ acc ∨ y = b.label := by
        intro y
        by_cases hm : b.label ∈ acc
        · rw [if_pos hm]
          constructor
          · exact Or.inl
          · rintro (h | h)
            · exact h
            · exact h ▸ hm
        · rw [if_neg hm]
          simp [List.mem_append]
      rw [hstep x]
      constructor
      · rintro ((h | h) | ⟨c, hc, hcx⟩)
        · exact Or.inl h
        · exact Or.inr ⟨b, List.mem_cons_self _ _, h.symm⟩
        · exact Or.inr ⟨c, List.mem_cons_of_mem _ hc, hcx⟩
      · rintro (h | ⟨c, hc, hcx⟩)
        · exact Or.inl (Or.inl h)
        · rcases List.mem_cons.1 hc with h1 | h1
          · exact Or.inl (Or.inr (h1 ▸ hcx).symm)
          · exact Or.inr ⟨c, h1, hcx⟩
    · intro hnd
      apply (ih _).2
      by_cases hm : b.label ∈ acc
      · rw [if_pos hm]; exact hnd
      · rw [if_neg hm]
        exact nodup_append_singleton hnd hm

theorem mem_declareLabels (blocks : List BlockStmt) (x : String) :
    x ∈ declareLabels blocks ↔ ∃ b ∈ blocks, b.label = x := by
  rw [declareLabels, (declareLabels_aux blocks []).1 x]
  simp

theorem declareLabels_nodup (blocks : List BlockStmt) : (declareLabels blocks).Nodup :=
  (declareLabels_aux blocks []).2 List.nodup_nil

mutual
theorem findDeps_sub_list : ∀ (body : Stmts) (labels : List String),
    ∀ d ∈ findDeclareDependencies body labels, d ∈ labels
  | Stmts.nil, labels, d, h => by simp [findDeclareDependencies] at h
  | Stmts.cons s rest, labels, d, h => by
    simp only [findDeclareDependencies] at h
    rcases List.mem_append.1 h with h1 | h1
    · exact findDeps_sub_stmt s labels d h1
    · exact findDeps_sub_list rest labels d h1
theorem findDeps_sub_stmt : ∀ (s : Stmt) (labels : List String),
    ∀ d ∈ findStmtDeps s labels, d ∈ labels
  | Stmt.attr, labels, d, h => by simp [findStmtDeps] at h
  | Stmt.block name lbl b refs, labels, d, h => by
    simp only [findStmtDeps] at h
    by_cases hn : joinName name = "declare"
    · rw [if_pos hn] at h
      exact findDeps_sub_list b labels d h
    · rw [if_neg hn] at h
      by_cases hm : joinName name ∈ labels
      · rw [if_pos hm] at h
        simp only [List.mem_singleton] at h
        exact h ▸ hm
      · rw [if_neg hm] at h
        simp at h
end

theorem mem_declareEdges (blocks : List BlockStmt) (s t : String) :
    (s, t) ∈ declareEdges blocks ↔
      ∃ b ∈ blocks, b.label = t ∧
        s ∈ findDeclareDependencies b.body (declareLabels blocks) := by
  simp only [declareEdges, List.mem_flatten, List.mem_map]
  constructor
  · rintro ⟨l, ⟨b, hb, rfl⟩, hmem⟩
    obtain ⟨d, hd, hde⟩ := List.mem_map.1 hmem
    have h1 : d = s := congrArg Prod.fst hde
    have h2 : b.label = t := congrArg Prod.snd hde
    exact ⟨b, hb, h2, h1 ▸ hd⟩
  · rintro ⟨b, hb, hbt, hs⟩
    refine ⟨_, ⟨b, hb, rfl⟩, List.mem_map.2 ⟨s, hs, ?_⟩⟩
    rw [hbt]

theorem declare_edgeCtx (blocks : List BlockStmt) :
    EdgeCtx (declareEdges blocks) (declareLabels blocks) := by
  refine ⟨declareLabels_nodup blocks, ?_, ?_⟩
  · rintro ⟨s, t⟩ he
    obtain ⟨b, _, _, hs⟩ := (mem_declareEdges blocks s t).1 he
    exact findDeps_sub_list b.body _ s hs
  · rintro ⟨s, t⟩ he
    obtain ⟨b, hb, hbt, _⟩ := (mem_declareEdges blocks s t).1 he
    exact (mem_declareLabels blocks t).2 ⟨b, hb, hbt⟩

theorem lookupLabel_spec (blocks : List BlockStmt) (l : String)
    (h : l ∈ declareLabels blocks) :
    ∃ b, lookupLabel blocks l = some b ∧ b.label = l ∧ b ∈ blocks := by
  obtain ⟨b0, hb0, hb0l⟩ := (mem_declareLabels blocks l).1 h
  unfold lookupLabel
  cases hfind : blocks.reverse.find? (fun b => decide (b.label = l)) with
  | none =>
    rw [List.find?_eq_none] at hfind
    exact absurd (decide_eq_true hb0l) (hfind b0 (List.mem_reverse.2 hb0))
  | some b =>
    refine ⟨b, rfl, ?_, ?_⟩
    · have hp := List.find?_some hfind
      simp only [decide_eq_true_eq] at hp
      exact hp
    · exact List.mem_reverse.1 (List.mem_of_find?_eq_some hfind)

theorem filterMap_lookup (blocks : List BlockStmt) :
    ∀ ls : List String, (∀ l ∈ ls, l ∈ declareLabels blocks) →
      ((ls.filterMap (lookupLabel blocks)).map BlockStmt.label = ls ∧
       ∀ b ∈ ls.filterMap (lookupLabel blocks),
         lookupLabel blocks b.label = some b ∧ b ∈ blocks) := by
  intro ls
  induction ls with
  | nil => intro _; simp
  | cons l r ih =>
    intro hsub
    obtain ⟨b, hb, hbl, hbm⟩ := lookupLabel_spec blocks l (hsub l (List.mem_cons_self _ _))
    obtain ⟨ih1, ih2⟩ := ih (fun x hx => hsub x (List.mem_cons_of_mem _ hx))
    rw [List.filterMap_cons, hb]
    constructor
    · simp [ih1, hbl]
    · intro c hc
      rcases List.mem_cons.1 hc with h1 | h1
      · subst h1
        exact ⟨by rw [hbl]; exact hb, hbm⟩
      · exact ih2 c h1

/-- In the final state, every label has been emitted when the edges are
acyclic. -/
theorem kahn_complete {edges : List (String × String)} {labels : List String}
    (ctx : EdgeCtx edges labels) {E : List String} {indegF : IntMap}
    (inv : KahnInv edges labels E [] indegF)
    (hacyc : EdgeAcyclic edges) : ∀ l ∈ labels, l ∈ E := by
  obtain ⟨rank, hrank⟩ := hacyc
  have main : ∀ n l, rank l = n → l ∈ labels → l ∈ E := by
    intro n
    induction n using Nat.strong_induction_on with
    | _ n ihn =>
      intro l hrl hl
      by_contra hlE
      have hne : cntIn edges l ≠ cntFrom edges E l := by
        intro heq
        rcases (inv.zeroIff l hl).2 heq with h | h
        · exact hlE h
        · simp at h
      have hnall : ¬ (∀ e ∈ edges, e.2 = l → e.1 ∈ E) :=
        fun hall => hne ((cntIn_eq_cntFrom_iff _ _ _).2 hall)
      push_neg at hnall
      obtain ⟨e, he, he2, he1⟩ := hnall
      have hlt : rank e.1 < rank e.2 := hrank e he
      rw [he2, hrl] at hlt
      exact he1 (ihn (rank e.1) hlt e.1 rfl (ctx.srcMem e he))
  intro l hl
  exact main (rank l) l rfl hl

theorem posIn_split {E l1 l2 : List String} {v : String} (hnd : E.Nodup)
    (h : E = l1 ++ v :: l2) : posIn E v = l1.length := by
  induction l1 generalizing E with
  | nil =>
    subst h
    simp [posIn]
  | cons y r ih =>
    subst h
    have hnd2 : (r ++ v :: l2).Nodup := (List.nodup_cons.1 hnd).2
    have hyv : ¬ y = v := by
      intro hc
      exact (List.nodup_cons.1 hnd).1 (hc ▸ (by simp : v ∈ r ++ v :: l2))
    simp only [posIn, List.cons_append, List.append_eq, if_neg hyv]
    rw [ih hnd2 rfl]
    simp

theorem posIn_prefix_lt {E l1 l2 : List String} {v u : String}
    (h : E = l1 ++ v :: l2) (hu : u ∈ l1) : posIn E u < l1.length := by
  induction l1 generalizing E with
  | nil => simp at hu
  | cons y r ih =>
    subst h
    by_cases hy : y = u
    · simp [posIn, hy]
    · rcases List.mem_cons.1 hu with h1 | h1
      · exact absurd h1.symm hy
      · simp only [posIn, List.cons_append, List.append_eq, if_neg hy, List.length_cons]
        have := ih rfl h1
        simp only [List.append_eq] at this
        omega

/-- One step of the topological-order property: the source of every edge
into an emitted label is emitted strictly earlier. -/
theorem topo_step {edges : List (String × String)} {labels : List String}
    {E : List String} {indegF : IntMap}
    (inv : KahnInv edges labels E [] indegF) {u v : String}
    (huv : (u, v) ∈ edges) (hvE : v ∈ E) :
    u ∈ E ∧ posIn E u < posIn E v := by
  obtain ⟨l1, l2, hsplit⟩ := List.append_of_mem hvE
  have hu1 : u ∈ l1 := inv.topo (u, v) huv l1 l2 hsplit
  refine ⟨by rw [hsplit]; exact List.mem_append.2 (Or.inl hu1), ?_⟩
  rw [posIn_split inv.nodupE hsplit]
  exact posIn_prefix_lt hsplit hu1

theorem reach_pos {edges : List (String × String)} {labels : List String}
    {E : List String} {indegF : IntMap}
    (inv : KahnInv edges labels E [] indegF) {x y : String}
    (h : EdgeReach edges x y) : y ∈ E → x ∈ E ∧ posIn E x < posIn E y := by
  induction h with
  | single hxy => exact fun hyE => topo_step inv hxy hyE
  | tail hr hzy ih =>
    intro hzE
    obtain ⟨hyE, hyz⟩ := topo_step inv hzy hzE
    obtain ⟨hxE, hxy⟩ := ih hyE
    exact ⟨hxE, lt_trans hxy hyz⟩

/-- A label on a cycle is never emitted. -/
theorem cycle_not_emitted {edges : List (String × String)} {labels : List String}
    {E : List String} {indegF : IntMap}
    (inv : KahnInv edges labels E [] indegF) {x : String}
    (h : EdgeReach edges x x) : x ∉ E :=
  fun hxE => absurd (reach_pos inv h hxE).2 (lt_irrefl _)

theorem reach_src_mem_labels {edges : List (String × String)} {labels : List String}
    (ctx : EdgeCtx edges labels) {x y : String}
    (h : EdgeReach edges x y) : x ∈ labels := by
  induction h with
  | single hxy => exact ctx.srcMem _ hxy
  | tail hr _ ih => exact ih

/-! ## Facts about `sortStrings` -/

theorem mem_insertSortedStr (s x : String) (l : List String) :
    x ∈ insertSortedStr s l ↔ x = s ∨ x ∈ l := by
  induction l with
  | nil => simp [insertSortedStr]
  | cons y r ih =>
    simp only [insertSortedStr]
    by_cases h : strLe s y
    · simp [h]
    · rw [if_neg h]
      simp only [List.mem_cons, ih]
      tauto

theorem mem_sortStrings (l : List String) (x : String) :
    x ∈ sortStrings l ↔ x ∈ l := by
  induction l with
  | nil => simp [sortStrings]
  | cons y r ih =>
    simp only [sortStrings, List.foldr_cons] at ih ⊢
    rw [mem_insertSortedStr, ih]
    simp

theorem charListLe_total (as bs : List Char) : charListLe as bs = true ∨ charListLe bs as = true := by
  induction as generalizing bs with
  | nil => left; simp [charListLe]
  | cons a ar ih =>
    cases bs with
    | nil => right; simp [charListLe]
    | cons b br =>
      simp only [charListLe]
      by_cases hab : a.toNat < b.toNat
      · left; simp [hab]
      · by_cases hba : b.toNat < a.toNat
        · right; simp [hba, hab]
        · have h1 : ¬ a.toNat < b.toNat := hab
          have h2 : ¬ b.toNat < a.toNat := hba
          simp only [if_neg h1, if_neg h2]
          exact ih br

theorem charListLe_trans {as bs cs : List Char} (h1 : charListLe as bs = true)
    (h2 : charListLe bs cs = true) : charListLe as cs = true := by
  induction as generalizing bs cs with
  | nil => simp [charListLe]
  | cons a ar ih =>
    cases bs with
    | nil => simp [charListLe] at h1
    | cons b br =>
      cases cs with
      | nil => simp [charListLe] at h2
      | cons c cr =>
        simp only [charListLe] at h1 h2 ⊢
        by_cases hab : a.toNat < b.toNat
        · by_cases hbc : b.toNat < c.toNat
          · have : a.toNat < c.toNat := lt_trans hab hbc
            simp [this]
          · by_cases hcb : c.toNat < b.toNat
            · simp [hcb, if_neg hbc] at h2
            · have hbceq : b.toNat = c.toNat := by omega
              have : a.toNat < c.toNat := hbceq ▸ hab
              simp [this]
        · by_cases hba : b.toNat < a.toNat
          · simp [hab, hba] at h1
          · have habeq : a.toNat = b.toNat := by omega
            by_cases hbc : b.toNat < c.toNat
            · have : a.toNat < c.toNat := habeq ▸ hbc
              simp [this]
            · by_cases hcb : c.toNat < b.toNat
              · simp [if_neg hbc, hcb] at h2
              · have hbceq : b.toNat = c.toNat := by omega
                have hac1 : ¬ a.toNat < c.toNat := by omega
                have hac2 : ¬ c.toNat < a.toNat := by omega
                simp only [if_neg hac1, if_neg hac2]
                rw [if_neg hab, if_neg hba] at h1
                rw [if_neg hbc, if_neg hcb] at h2
                exact ih h1 h2

theorem strLe_total (a b : String) : strLe a b = true ∨ strLe b a = true :=
  charListLe_total a.data b.data

theorem strLe_trans {a b c : String} (h1 : strLe a b = true) (h2 : strLe b c = true) :
    strLe a c = true :=
  charListLe_trans h1 h2

theorem insertSortedStr_pairwise (y : String) (l : List String)
    (hl : l.Pairwise (fun a b => strLe a b = true)) :
    (insertSortedStr y l).Pairwise (fun a b => strLe a b = true) := by
  induction l with
  | nil => simp [insertSortedStr]
  | cons x xs ihx =>
    simp only [insertSortedStr]
    by_cases h : strLe y x
    · rw [if_pos h]
      refine List.pairwise_cons.2 ⟨?_, hl⟩
      intro z hz
      rcases List.mem_cons.1 hz with h1 | h1
      · exact h1 ▸ h
      · exact strLe_trans h ((List.pairwise_cons.1 hl).1 z h1)
    · rw [if_neg h]
      obtain ⟨hx1, hx2⟩ := List.pairwise_cons.1 hl
      refine List.pairwise_cons.2 ⟨?_, ihx hx2⟩
      intro z hz
      rcases (mem_insertSortedStr y z xs).1 hz with h1 | h1
      · rw [h1]
        rcases strLe_total y x with ht | ht
        · exact absurd ht h
        · exact ht
      · exact hx1 z h1

/-- The output of `sortStrings` is ascending under `strLe`. -/
theorem sortStrings_sorted (l : List String) :
    (sortStrings l).Pairwise (fun a b => strLe a b = true) := by
  induction l with
  | nil => simp [sortStrings]
  | cons y r ih =>
    simp only [sortStrings, List.foldr_cons] at ih ⊢
    exact insertSortedStr_pairwise y _ ih

/-! ## Claim theorems for `SortDeclareBlocks` -/

theorem length_eq_of_nodup_subsets {l1 l2 : List String} (h1 : l1.Nodup) (h2 : l2.Nodup)
    (s1 : ∀ x ∈ l1, x ∈ l2) (s2 : ∀ x ∈ l2, x ∈ l1) : l1.length = l2.length :=
  le_antisymm (List.Subperm.length_le (List.subperm_of_subset h1 s1))
    (List.Subperm.length_le (List.subperm_of_subset h2 s2))

theorem kahnResult_inv (blocks : List BlockStmt) :
    KahnInv (declareEdges blocks) (declareLabels blocks)
      (kahnResult blocks).1 [] (kahnResult blocks).2 :=
  kahn_run_inv (declare_edgeCtx blocks)

/-- C5: for declare blocks whose label-dependency graph is acyclic,
`SortDeclareBlocks` succeeds with no diagnostics and returns exactly one
block per distinct label, in an order where every block comes after all
blocks it depends on. -/
theorem sortDeclareBlocks_topological (blocks : List BlockStmt)
    (hacyc : EdgeAcyclic (declareEdges blocks)) :
    ∃ sorted : List BlockStmt,
      SortDeclareBlocks blocks = (some sorted, []) ∧
      (sorted.map BlockStmt.label).Nodup ∧
      (∀ l, l ∈ sorted.map BlockStmt.label ↔ l ∈ declareLabels blocks) ∧
      (∀ l1 b l2, sorted = l1 ++ b :: l2 →
        ∀ dep ∈ findDeclareDependencies b.body (declareLabels blocks),
          ∃ a ∈ l1, a.label = dep) := by
  have ctx := declare_edgeCtx blocks
  have inv := kahnResult_inv blocks
  have hcomp : ∀ l ∈ declareLabels blocks, l ∈ (kahnResult blocks).1 :=
    kahn_complete ctx inv hacyc
  have hlen : (kahnResult blocks).1.length = (declareLabels blocks).length :=
    length_eq_of_nodup_subsets inv.nodupE ctx.nodupL inv.subE hcomp
  obtain ⟨hmap, hlook⟩ := filterMap_lookup blocks (kahnResult blocks).1 inv.subE
  refine ⟨(kahnResult blocks).1.filterMap (lookupLabel blocks), ?_, ?_, ?_, ?_⟩
  · simp only [SortDeclareBlocks]
    rw [if_pos hlen]
  · rw [hmap]
    exact inv.nodupE
  · intro l
    rw [hmap]
    exact ⟨fun h => inv.subE l h, fun h => hcomp l h⟩
  · intro l1 b l2 hsplit dep hdep
    have hbmem : b ∈ (kahnResult blocks).1.filterMap (lookupLabel blocks) := by
      rw [hsplit]
      exact List.mem_append.2 (Or.inr (List.mem_cons_self _ _))
    obtain ⟨_, hbblocks⟩ := hlook b hbmem
    have hedge : (dep, b.label) ∈ declareEdges blocks :=
      (mem_declareEdges _ _ _).2 ⟨b, hbblocks, rfl, hdep⟩
    have hmapsplit : (kahnResult blocks).1 =
        (l1.map BlockStmt.label) ++ b.label :: (l2.map BlockStmt.label) := by
      rw [← hmap, hsplit]
      simp
    have hsrc := inv.topo (dep, b.label) hedge _ _ hmapsplit
    obtain ⟨a, ha, hal⟩ := List.mem_map.1 hsrc
    exact ⟨a, ha, hal⟩

/-- C6: if the declare label-dependency graph has a cycle, `SortDeclareBlocks`
returns no list (Go `nil`) and exactly one error diagnostic, listing — in
ascending lexicographic order — precisely the labels whose remaining
in-degree is positive, which are exactly the labels Kahn's sort never
emitted. -/
theorem sortDeclareBlocks_cycle (blocks : List BlockStmt)
    (hcyc : ∃ x, EdgeReach (declareEdges blocks) x x) :
    SortDeclareBlocks blocks =
      (none, [⟨Severity.error, DiagKind.cycleInDeclare (unresolvedOf blocks)⟩]) ∧
    (unresolvedOf blocks).Pairwise (fun a b => strLe a b = true) ∧
    (∀ l, l ∈ unresolvedOf blocks ↔
      l ∈ declareLabels blocks ∧ l ∉ (kahnResult blocks).1) := by
  have ctx := declare_edgeCtx blocks
  have inv := kahnResult_inv blocks
  obtain ⟨x, hx⟩ := hcyc
  have hxlab : x ∈ declareLabels blocks := reach_src_mem_labels ctx hx
  have hxE : x ∉ (kahnResult blocks).1 := cycle_not_emitted inv hx
  have hne : ¬ (kahnResult blocks).1.length = (declareLabels blocks).length := by
    intro heq
    have hsub : (kahnResult blocks).1.toFinset ⊆ (declareLabels blocks).toFinset :=
      fun a ha => List.mem_toFinset.2 (inv.subE a (List.mem_toFinset.1 ha))
    have hcard1 : (kahnResult blocks).1.toFinset.card = (kahnResult blocks).1.length :=
      List.toFinset_card_of_nodup inv.nodupE
    have hcard2 : (declareLabels blocks).toFinset.card = (declareLabels blocks).length :=
      List.toFinset_card_of_nodup ctx.nodupL
    have heqf : (kahnResult blocks).1.toFinset = (declareLabels blocks).toFinset :=
      Finset.eq_of_subset_of_card_le hsub (by omega)
    exact hxE (List.mem_toFinset.1 (heqf ▸ List.mem_toFinset.2 hxlab))
  have hmemiff : ∀ l, l ∈ unresolvedOf blocks ↔
      l ∈ declareLabels blocks ∧ l ∉ (kahnResult blocks).1 := by
    intro l
    have hposkeys := mem_pos_keys_iff (kahnResult blocks).2 l inv.keysNd
    constructor
    · intro h
      rw [unresolvedOf, mem_sortStrings] at h
      have hpos := hposkeys.1 h
      have hk : l ∈ (kahnResult blocks).2.map Prod.fst := by
        by_contra hc
        rw [getD_eq_zero_of_not_mem_keys _ _ hc] at hpos
        omega
      refine ⟨inv.keysSub l hk, fun hlE => ?_⟩
      have hz := (inv.zeroIff l (inv.keysSub l hk)).1 (Or.inl hlE)
      have hd := inv.deg l
      omega
    · rintro ⟨hlab2, hlE⟩
      rw [unresolvedOf, mem_sortStrings]
      apply hposkeys.2
      have hz : ¬ (l ∈ (kahnResult blocks).1 ∨ l ∈ ([] : List String)) := by
        simp [hlE]
      have hz2 : ¬ cntIn (declareEdges blocks) l =
          cntFrom (declareEdges blocks) (kahnResult blocks).1 l :=
        fun hc => hz ((inv.zeroIff l hlab2).2 hc)
      have hle := cntFrom_le_cntIn (declareEdges blocks) (kahnResult blocks).1 l
      have hd := inv.deg l
      omega
  refine ⟨?_, ?_, hmemiff⟩
  · simp only [SortDeclareBlocks]
    rw [if_neg hne]
  · rw [unresolvedOf]
    exact sortStrings_sorted _

/-- C10: when two declare blocks carry the same label, the later block
replaces the earlier one in `blockByLabel`: any returned list has at most
one block per distinct label, every returned block is exactly the last block
with its label, an earlier duplicate that is not the last binding never
appears, and the only diagnostic `SortDeclareBlocks` can emit is the single
cycle diagnostic (never one for the duplicate label). -/
theorem sortDeclareBlocks_duplicate_label (blocks pre mid post : List BlockStmt)
    (b1 b2 : BlockStmt) (hsplit : blocks = pre ++ b1 :: (mid ++ b2 :: post))
    (hlab : b1.label = b2.label) :
    (∃ w, lookupLabel blocks b1.label = some w ∧ w.label = b1.label ∧
      w ∈ mid ++ b2 :: post) ∧
    (∀ sorted, (SortDeclareBlocks blocks).1 = some sorted →
      ((sorted.map BlockStmt.label).Nodup ∧
       (∀ b ∈ sorted, lookupLabel blocks b.label = some b ∧ b ∈ blocks) ∧
       (lookupLabel blocks b1.label ≠ some b1 → b1 ∉ sorted))) ∧
    ((SortDeclareBlocks blocks).2 = [] ∨
      ∃ unres, (SortDeclareBlocks blocks).2 =
        [⟨Severity.error, DiagKind.cycleInDeclare unres⟩]) := by
  have inv := kahnResult_inv blocks
  obtain ⟨hmap, hlook⟩ := filterMap_lookup blocks (kahnResult blocks).1 inv.subE
  refine ⟨?_, ?_, ?_⟩
  · have hrev : blocks.reverse =
        (post.reverse ++ [b2]) ++ (mid.reverse ++ b1 :: pre.reverse) := by
      rw [hsplit]
      simp
    have hfind1 : ∃ w, (post.reverse ++ [b2]).find?
        (fun c => decide (c.label = b1.label)) = some w := by
      rcases hw : (post.reverse ++ [b2]).find? (fun c => decide (c.label = b1.label)) with
        _ | w
      · rw [List.find?_eq_none] at hw
        exact absurd (decide_eq_true hlab.symm) (hw b2 (by simp))
      · exact ⟨w, hw⟩
    obtain ⟨w, hw⟩ := hfind1
    refine ⟨w, ?_, ?_, ?_⟩
    · rw [lookupLabel, hrev, List.find?_append, hw]
      rfl
    · have hp := List.find?_some hw
      simp only [decide_eq_true_eq] at hp
      exact hp
    · have hm := List.mem_of_find?_eq_some hw
      rcases List.mem_append.1 hm with h1 | h1
      · exact List.mem_append.2 (Or.inr (List.mem_cons_of_mem _ (List.mem_reverse.1 h1)))
      · simp only [List.mem_singleton] at h1
        exact List.mem_append.2 (Or.inr (h1 ▸ List.mem_cons_self _ _))
  · intro sorted hsome
    have hsorted : sorted = (kahnResult blocks).1.filterMap (lookupLabel blocks) := by
      by_cases hlen : (kahnResult blocks).1.length = (declareLabels blocks).length
      · simp only [SortDeclareBlocks] at hsome
        rw [if_pos hlen] at hsome
        simpa using hsome.symm
      · simp only [SortDeclareBlocks] at hsome
        rw [if_neg hlen] at hsome
        simp at hsome
    subst hsorted
    refine ⟨by rw [hmap]; exact inv.nodupE, hlook, ?_⟩
    intro hne hmem
    exact hne (hlook b1 hmem).1
  · by_cases hlen : (kahnResult blocks).1.length = (declareLabels blocks).length
    · left
      simp only [SortDeclareBlocks]
      rw [if_pos hlen]
    · right
      refine ⟨unresolvedOf blocks, ?_⟩
      simp only [SortDeclareBlocks]
      rw [if_neg hlen]

mutual
theorem findDeps_iff_refs_list : ∀ (body : Stmts) (labels : List String) (lbl : String),
    lbl ∈ labels →
    (lbl ∈ findDeclareDependencies body labels ↔ specBodyReferences body lbl = true)
  | Stmts.nil, labels, lbl, _ => by
    simp [findDeclareDependencies, specBodyReferences]
  | Stmts.cons s rest, labels, lbl, hmem => by
    simp only [findDeclareDependencies, specBodyReferences, List.mem_append,
      Bool.or_eq_true]
    rw [findDeps_iff_refs_stmt s labels lbl hmem, findDeps_iff_refs_list rest labels lbl hmem]
theorem findDeps_iff_refs_stmt : ∀ (s : Stmt) (labels : List String) (lbl : String),
    lbl ∈ labels →
    (lbl ∈ findStmtDeps s labels ↔ specStmtReferences s lbl = true)
  | Stmt.attr, labels, lbl, _ => by
    simp [findStmtDeps, specStmtReferences]
  | Stmt.block name l b r, labels, lbl, hmem => by
    simp only [findStmtDeps, specStmtReferences]
    by_cases hn : joinName name = "declare"
    · rw [if_pos hn, if_pos hn]
      exact findDeps_iff_refs_list b labels lbl hmem
    · rw [if_neg hn, if_neg hn]
      by_cases hm : joinName name ∈ labels
      · rw [if_pos hm]
        simp only [List.mem_singleton, decide_eq_true_eq]
        exact ⟨fun h => h.symm, fun h => h.symm⟩
      · rw [if_neg hm]
        simp only [List.not_mem_nil, false_iff, decide_eq_true_eq]
        intro hc
        exact hm (hc ▸ hmem)
end

/-- C7: for declare blocks `A` and `B` of the same `SortDeclareBlocks` input,
`findDeclareDependencies` reports that `B` depends on `A` exactly when `B`'s
body — searched recursively through nested declare blocks — references a
block whose name matches `A`'s label. -/
theorem findDeclareDependencies_iff_references (blocks : List BlockStmt)
    (A B : BlockStmt) (hA : A ∈ blocks) (_hB : B ∈ blocks) :
    A.label ∈ findDeclareDependencies B.body (declareLabels blocks) ↔
      specBodyReferences B.body A.label = true :=
  findDeps_iff_refs_list B.body (declareLabels blocks) A.label
    ((mem_declareLabels blocks A.label).2 ⟨A, hA, rfl⟩)

theorem sortDeclareBlocks_topological_witness :
    EdgeAcyclic (declareEdges [exDeclA, exDeclB, exDeclC]) ∧
    ∃ sorted : List BlockStmt,
      SortDeclareBlocks [exDeclA, exDeclB, exDeclC] = (some sorted, []) ∧
      (sorted.map BlockStmt.label).Nodup ∧
      (∀ l, l ∈ sorted.map BlockStmt.label ↔
        l ∈ declareLabels [exDeclA, exDeclB, exDeclC]) ∧
      (∀ l1 b l2, sorted = l1 ++ b :: l2 →
        ∀ dep ∈ findDeclareDependencies b.body (declareLabels [exDeclA, exDeclB, exDeclC]),
          ∃ a ∈ l1, a.label = dep) := by
  have hacyc : EdgeAcyclic (declareEdges [exDeclA, exDeclB, exDeclC]) := by
    refine ⟨fun s => if s = "a" then 0 else if s = "b" then 1 else 2, ?_⟩
    decide
  exact ⟨hacyc, sortDeclareBlocks_topological _ hacyc⟩

theorem sortDeclareBlocks_cycle_witness :
    (∃ x, EdgeReach (declareEdges [exCycA, exCycB]) x x) ∧
    SortDeclareBlocks [exCycA, exCycB] =
      (none, [⟨Severity.error, DiagKind.cycleInDeclare ["a", "b"]⟩]) := by
  have h1 : ("a", "b") ∈ declareEdges [exCycA, exCycB] := by decide
  have h2 : ("b", "a") ∈ declareEdges [exCycA, exCycB] := by decide
  have hcyc : ∃ x, EdgeReach (declareEdges [exCycA, exCycB]) x x :=
    ⟨"a", EdgeReach.tail (EdgeReach.single h1) h2⟩
  refine ⟨hcyc, ?_⟩
  have h := (sortDeclareBlocks_cycle [exCycA, exCycB] hcyc).1
  have hu : unresolvedOf [exCycA, exCycB] = ["a", "b"] := by decide
  rw [hu] at h
  exact h

theorem findDeclareDependencies_iff_references_witness :
    (exDeclA ∈ [exDeclA, exNestB] ∧ exNestB ∈ [exDeclA, exNestB]) ∧
    (exDeclA.label ∈
        findDeclareDependencies exNestB.body (declareLabels [exDeclA, exNestB]) ↔
      specBodyReferences exNestB.body exDeclA.label = true) ∧
    exDeclA.label ∈
      findDeclareDependencies exNestB.body (declareLabels [exDeclA, exNestB]) := by
  have hA : exDeclA ∈ [exDeclA, exNestB] := List.mem_cons_self _ _
  have hB : exNestB ∈ [exDeclA, exNestB] :=
    List.mem_cons_of_mem _ (List.mem_cons_self _ _)
  refine ⟨⟨hA, hB⟩,
    findDeclareDependencies_iff_references [exDeclA, exNestB] exDeclA exNestB hA hB, ?_⟩
  decide

theorem sortDeclareBlocks_duplicate_label_witness :
    (∃ w, lookupLabel [exDupA1, exDupA2] exDupA1.label = some w ∧
      w.label = exDupA1.label ∧ w ∈ [] ++ exDupA2 :: []) ∧
    (∀ sorted, (SortDeclareBlocks [exDupA1, exDupA2]).1 = some sorted →
      ((sorted.map BlockStmt.label).Nodup ∧
       (∀ b ∈ sorted, lookupLabel [exDupA1, exDupA2] b.label = some b ∧
         b ∈ [exDupA1, exDupA2]) ∧
       (lookupLabel [exDupA1, exDupA2] exDupA1.label ≠ some exDupA1 →
         exDupA1 ∉ sorted))) ∧
    ((SortDeclareBlocks [exDupA1, exDupA2]).2 = [] ∨
      ∃ unres, (SortDeclareBlocks [exDupA1, exDupA2]).2 =
        [⟨Severity.error, DiagKind.cycleInDeclare unres⟩]) :=
  sortDeclareBlocks_duplicate_label [exDupA1, exDupA2] [] [] [] exDupA1 exDupA2 rfl rfl

/-! ## Basic graph lemmas -/

theorem GetByID_some_id {g : Graph} {x : String} {n : Node}
    (h : g.GetByID x = some n) : n.id = x := by
  have := List.find?_some h
  simpa using this

theorem find?_map_replace (ns : List Node) (n : Node) (x : String) (hx : ¬ x = n.id) :
    (ns.map (fun m => if m.id = n.id then n else m)).find? (fun m => decide (m.id = x)) =
      ns.find? (fun m => decide (m.id = x)) := by
  induction ns with
  | nil => simp
  | cons m rest ih =>
    by_cases hm : m.id = n.id
    · have h1 : ¬ n.id = x := fun hc => hx hc.symm
      have h2 : ¬ m.id = x := by rw [hm]; exact h1
      simp only [List.map_cons, if_pos hm, List.find?, decide_eq_false h1,
        decide_eq_false h2]
      exact ih
    · simp only [List.map_cons, if_neg hm, List.find?]
      cases hdec : decide (m.id = x) with
      | true => rfl
      | false => exact ih

theorem find?_map_replace_hit (ns : List Node) (n : Node)
    (hex : ∃ m ∈ ns, m.id = n.id) :
    (ns.map (fun m => if m.id = n.id then n else m)).find?
      (fun m => decide (m.id = n.id)) = some n := by
  induction ns with
  | nil => simp at hex
  | cons m rest ih =>
    by_cases hm : m.id = n.id
    · simp [List.find?, hm]
    · simp only [List.map_cons, if_neg hm, List.find?, decide_eq_false hm]
      apply ih
      obtain ⟨w, hw, hwid⟩ := hex
      rcases List.mem_cons.1 hw with h1 | h1
      · exact absurd (h1 ▸ hwid) hm
      · exact ⟨w, h1, hwid⟩

theorem GetByID_Add (g : Graph) (n : Node) (x : String) :
    (g.Add n).GetByID x = if x = n.id then some n else g.GetByID x := by
  unfold Graph.Add
  by_cases hmem : g.nodes.any (fun m => decide (m.id = n.id))
  · rw [if_pos hmem]
    simp only [List.any_eq_true, decide_eq_true_eq] at hmem
    by_cases hx : x = n.id
    · rw [if_pos hx]
      show (g.nodes.map _).find? _ = some n
      rw [hx]
      exact find?_map_replace_hit g.nodes n hmem
    · rw [if_neg hx]
      exact find?_map_replace g.nodes n x hx
  · rw [if_neg hmem]
    simp only [List.any_eq_true, decide_eq_true_eq] at hmem
    push_neg at hmem
    show (g.nodes ++ [n]).find? _ = _
    rw [List.find?_append]
    by_cases hx : x = n.id
    · rw [if_pos hx]
      have hnone : g.nodes.find? (fun m => decide (m.id = x)) = none := by
        rw [List.find?_eq_none]
        intro m hm
        simp only [decide_eq_true_eq]
        rw [hx]
        exact hmem m hm
      rw [hnone]
      simp [List.find?, hx]
    · rw [if_neg hx]
      have hsingle : [n].find? (fun m => decide (m.id = x)) = none := by
        simp only [List.find?]
        rw [decide_eq_false (fun hc : n.id = x => hx hc.symm)]
      rw [hsingle]
      cases hG : g.nodes.find? (fun m => decide (m.id = x)) with
      | none => simp [Graph.GetByID, hG]
      | some m => simp [Graph.GetByID, hG]

theorem GetByID_AddEdge (g : Graph) (e : String × String) (x : String) :
    (g.AddEdge e).GetByID x = g.GetByID x := rfl

theorem GetByID_MergeEdges (g sub : Graph) (x : String) :
    (g.MergeEdges sub).GetByID x = g.GetByID x := rfl

theorem presInstall_refl (a : LoaderState) : presInstall a a := ⟨rfl, rfl, rfl, rfl⟩

theorem presInstall_trans {a b c : LoaderState}
    (h1 : presInstall a b) (h2 : presInstall b c) : presInstall a c :=
  ⟨h2.1.trans h1.1, h2.2.1.trans h1.2.1, h2.2.2.1.trans h1.2.2.1, h2.2.2.2.trans h1.2.2.2⟩

theorem presInstall_foldl {α β : Type} (proj : β → LoaderState) (f : β → α → β)
    (h : ∀ acc a, presInstall (proj acc) (proj (f acc a))) :
    ∀ (l : List α) (acc : β), presInstall (proj acc) (proj (l.foldl f acc)) := by
  intro l
  induction l with
  | nil => exact fun acc => presInstall_refl _
  | cons a r ih =>
    intro acc
    exact presInstall_trans (h acc a) (ih (f acc a))

theorem presInstall_populateServiceNodes (env : LoaderEnv) (st : LoaderState)
    (g : Graph) (sbs : List BlockStmt) :
    presInstall st (populateServiceNodes env st g sbs).2.1 := by
  unfold populateServiceNodes
  refine presInstall_trans
    (presInstall_foldl (fun (acc : Graph × LoaderState × Diags) => acc.2.1) _ ?_
      env.services (g, st, []))
    (presInstall_foldl (fun (acc : Graph × LoaderState × Diags) => acc.2.1) _ ?_ sbs _)
  · intro acc svc
    rcases acc with ⟨g1, st1, ds1⟩
    dsimp only
    split
    · exact presInstall_refl _
    · split
      · split
        · exact presInstall_refl _
        · exact ⟨rfl, rfl, rfl, rfl⟩
      · exact ⟨rfl, rfl, rfl, rfl⟩
  · intro acc block
    rcases acc with ⟨g1, st1, ds1⟩
    dsimp only
    split
    · split
      · exact presInstall_refl _
      · exact presInstall_refl _
    · exact presInstall_refl _

theorem presInstall_populateConfigBlockNodes (st : LoaderState) (g : Graph)
    (cfgs : List BlockStmt) (inModule : Bool) :
    presInstall st (populateConfigBlockNodes st g cfgs inModule).2.1 := by
  unfold populateConfigBlockNodes
  have h1 : presInstall st
      ((cfgs.foldl (fun (acc : Graph × LoaderState × Diags) block =>
        let (g, st, diags) := acc
        let (node, st2) := NewConfigNode st block
        if (g.GetByID node.id).isSome then
          (g, st2, diags ++ [⟨Severity.error, DiagKind.configBlockRedeclared node.id⟩])
        else
          (g.Add node, st2, diags)) (g, st, []))).2.1 := by
    refine presInstall_foldl (fun (acc : Graph × LoaderState × Diags) => acc.2.1) _ ?_
      cfgs (g, st, [])
    intro acc block
    rcases acc with ⟨g1, st1, ds1⟩
    dsimp only [NewConfigNode]
    split
    · exact ⟨rfl, rfl, rfl, rfl⟩
    · exact ⟨rfl, rfl, rfl, rfl⟩
  dsimp only
  split
  · split
    · exact presInstall_trans h1 ⟨rfl, rfl, rfl, rfl⟩
    · exact presInstall_trans h1 ⟨rfl, rfl, rfl, rfl⟩
  · split
    · exact presInstall_trans h1 ⟨rfl, rfl, rfl, rfl⟩
    · exact presInstall_trans h1 ⟨rfl, rfl, rfl, rfl⟩

theorem presInstall_populateComponentStep (env : LoaderEnv)
    (templates : List (String × Graph)) (st : LoaderState) (g : Graph)
    (block : BlockStmt) :
    presInstall st (populateComponentStep env templates st g block).2.1 := by
  unfold populateComponentStep
  dsimp only
  split
  · exact presInstall_refl _
  · split
    · exact ⟨rfl, rfl, rfl, rfl⟩
    · split
      · exact ⟨rfl, rfl, rfl, rfl⟩
      · exact presInstall_refl _

theorem presInstall_populateComponentNodes (env : LoaderEnv)
    (templates : List (String × Graph)) (blocks : List BlockStmt) :
    ∀ (st : LoaderState) (g : Graph) (bm : List String),
    presInstall st (populateComponentNodes env templates blocks st g bm).2.1 := by
  induction blocks with
  | nil => exact fun st g bm => presInstall_refl _
  | cons block rest ih =>
    intro st g bm
    simp only [populateComponentNodes]
    split
    · exact ih st g bm
    · split
      · split
        · exact ih st _ _
        · exact presInstall_trans
            (presInstall_populateComponentStep env templates st g block) (ih _ _ _)
      · exact presInstall_trans
          (presInstall_populateComponentStep env templates st g block) (ih _ _ _)

theorem presInstall_populateDeclareBlockNodes
    (loadRec : LoaderState → List BlockStmt → List BlockStmt → List BlockStmt →
      List (String × Graph) → Graph × LoaderState × Diags)
    (hrec : ∀ st c1 c2 c3 nt, presInstall st (loadRec st c1 c2 c3 nt).2.1)
    (st : LoaderState) (g : Graph) (nt : List (String × Graph))
    (blocks : List BlockStmt) :
    presInstall st (populateDeclareBlockNodes loadRec st g nt blocks).2.1 := by
  unfold populateDeclareBlockNodes
  refine presInstall_foldl
    (fun (acc : Graph × LoaderState × List (String × Graph) × Diags) => acc.2.1) _ ?_
    blocks (g, st, nt, [])
  intro acc block
  dsimp only
  split
  · exact hrec _ _ _ _ _
  · exact hrec _ _ _ _ _

theorem presInstall_buildWired (env : LoaderEnv)
    (declHandler : LoaderState → Graph → List (String × Graph) → List BlockStmt →
      Graph × LoaderState × List (String × Graph) × Diags)
    (hdh : ∀ st g nt blocks, presInstall st (declHandler st g nt blocks).2.1)
    (st : LoaderState) (cbs cfgs dbs : List BlockStmt) (inM inD : Bool)
    (pT : List (String × Graph)) :
    presInstall st (buildWired env declHandler st cbs cfgs dbs inM inD pT).2.1 := by
  unfold buildWired
  dsimp only
  refine presInstall_trans ?_ (presInstall_populateComponentNodes env _ _ _ _ _)
  refine presInstall_trans ?_ (hdh _ _ _ _)
  refine presInstall_trans ?_ (presInstall_populateConfigBlockNodes _ _ _ _)
  split
  · exact presInstall_populateServiceNodes env st _ _
  · exact presInstall_refl _

theorem presInstall_loadNewGraph (env : LoaderEnv) :
    ∀ (fuel : Nat) (st : LoaderState) (cbs cfgs dbs : List BlockStmt)
      (inM inD : Bool) (pT : List (String × Graph)),
    presInstall st (loadNewGraph env fuel st cbs cfgs dbs inM inD pT).2.1 := by
  intro fuel
  induction fuel with
  | zero =>
    intro st cbs cfgs dbs inM inD pT
    simp only [loadNewGraph, loadNewGraphStep]
    have hw := presInstall_buildWired env (fun st g nt _ => (g, st, nt, []))
      (fun st g nt blocks => presInstall_refl st) st cbs cfgs dbs inM inD pT
    split
    · exact hw
    · exact presInstall_trans hw ⟨rfl, rfl, rfl, rfl⟩
  | succ fuel ih =>
    intro st cbs cfgs dbs inM inD pT
    simp only [loadNewGraph, loadNewGraphStep]
    have hdh : ∀ st g nt blocks, presInstall st
        ((populateDeclareBlockNodes
          (fun st comps confs decls nt2 =>
            loadNewGraph env fuel st comps confs decls true true nt2)
          st g nt blocks)).2.1 := by
      intro st g nt blocks
      exact presInstall_populateDeclareBlockNodes _
        (fun st c1 c2 c3 nt => ih st c1 c2 c3 true true nt) st g nt blocks
    have hw := presInstall_buildWired env _ hdh st cbs cfgs dbs inM inD pT
    split
    · exact hw
    · exact presInstall_trans hw ⟨rfl, rfl, rfl, rfl⟩

theorem hasErrors_of_mem {ds : Diags} {d : Diag} (hd : d ∈ ds)
    (he : d.severity = Severity.error) : hasErrors ds = true := by
  unfold hasErrors
  rw [List.any_eq_true]
  exact ⟨d, hd, decide_eq_true he⟩

/-- C3: when cycle validation of the newly wired graph fails, `Apply`
returns the aggregated diagnostics (which contain the cycle error) without
evaluating any node, and the previously installed graph, component-node
list, service-node list and blocks are unchanged. -/
theorem apply_cycle_no_install (env : LoaderEnv) (st : LoaderState)
    (args : List String) (cbs cfgs dbs : List BlockStmt)
    (hcyc : (buildWired env (declHandlerFuel env (blocksSize dbs))
      { st with cacheArgs := args } cbs cfgs dbs env.isModule false
      []).1.hasCycle = true) :
    (Apply env st args cbs cfgs dbs).1.graph = st.graph ∧
    (Apply env st args cbs cfgs dbs).1.componentNodes = st.componentNodes ∧
    (Apply env st args cbs cfgs dbs).1.serviceNodes = st.serviceNodes ∧
    (Apply env st args cbs cfgs dbs).1.blocks = st.blocks ∧
    (⟨Severity.error, DiagKind.graphCycle⟩ : Diag) ∈ (Apply env st args cbs cfgs dbs).2.1 ∧
    hasErrors (Apply env st args cbs cfgs dbs).2.1 = true ∧
    (Apply env st args cbs cfgs dbs).2.2 = [] := by
  have h1 : loadNewGraph env (blocksSize dbs + 1) { st with cacheArgs := args }
      cbs cfgs dbs env.isModule false [] =
      ((buildWired env (declHandlerFuel env (blocksSize dbs))
          { st with cacheArgs := args } cbs cfgs dbs env.isModule false []).1,
       (buildWired env (declHandlerFuel env (blocksSize dbs))
          { st with cacheArgs := args } cbs cfgs dbs env.isModule false []).2.1,
       (buildWired env (declHandlerFuel env (blocksSize dbs))
          { st with cacheArgs := args } cbs cfgs dbs env.isModule false []).2.2 ++
         [⟨Severity.error, DiagKind.graphCycle⟩]) := by
    show loadNewGraphStep env (declHandlerFuel env (blocksSize dbs))
      { st with cacheArgs := args } cbs cfgs dbs env.isModule false [] = _
    unfold loadNewGraphStep
    rw [if_pos hcyc]
  have hmem : (⟨Severity.error, DiagKind.graphCycle⟩ : Diag) ∈
      (buildWired env (declHandlerFuel env (blocksSize dbs))
        { st with cacheArgs := args } cbs cfgs dbs env.isModule false []).2.2 ++
        [⟨Severity.error, DiagKind.graphCycle⟩] :=
    List.mem_append.2 (Or.inr (List.mem_singleton.2 rfl))
  have h2 : hasErrors
      ((buildWired env (declHandlerFuel env (blocksSize dbs))
        { st with cacheArgs := args } cbs cfgs dbs env.isModule false []).2.2 ++
        [⟨Severity.error, DiagKind.graphCycle⟩]) = true :=
    hasErrors_of_mem hmem rfl
  have hdh : ∀ st g nt blocks, presInstall st
      (declHandlerFuel env (blocksSize dbs) st g nt blocks).2.1 := by
    intro st g nt blocks
    unfold declHandlerFuel
    exact presInstall_populateDeclareBlockNodes _
      (fun st c1 c2 c3 nt => presInstall_loadNewGraph env _ st c1 c2 c3 true true nt)
      st g nt blocks
  have hpres := presInstall_buildWired env _ hdh { st with cacheArgs := args }
    cbs cfgs dbs env.isModule false []
  simp only [Apply]
  rw [h1]
  dsimp only
  rw [if_pos h2]
  exact ⟨hpres.1, hpres.2.1, hpres.2.2.1, hpres.2.2.2, hmem, h2, rfl⟩

theorem apply_cycle_no_install_witness :
    (buildWired exEnv (declHandlerFuel exEnv (blocksSize []))
      { NewLoader with cacheArgs := [] } [exCycCompA, exCycCompB] [] [] exEnv.isModule
      false []).1.hasCycle = true ∧
    (Apply exEnv NewLoader [] [exCycCompA, exCycCompB] [] []).1.graph = NewLoader.graph ∧
    (Apply exEnv NewLoader [] [exCycCompA, exCycCompB] [] []).2.2 = [] := by
  have hcyc : (buildWired exEnv (declHandlerFuel exEnv (blocksSize []))
      { NewLoader with cacheArgs := [] } [exCycCompA, exCycCompB] [] [] exEnv.isModule
      false []).1.hasCycle = true := by decide
  have h := apply_cycle_no_install exEnv NewLoader [] [exCycCompA, exCycCompB] [] [] hcyc
  exact ⟨hcyc, h.1, h.2.2.2.2.2.2⟩

/-- C2 counterexample: with registry knowing only `t`, applying
`[nope "x" \x7b \x7d, t "a" \x7b \x7d]` records exactly one error diagnostic for
the unrecognized name `nope`, and the valid sibling `t.a` IS added to the
newly built graph — but, contrary to the claim, `Apply` aborts before
evaluating anything: the evaluation log is empty and the new graph is not
installed (the loader keeps its previous, empty graph). -/
theorem apply_unrecognized_counterexample :
    (Apply exEnv NewLoader [] [exCompBad, exCompA] [] []).2.1 =
      [⟨Severity.error, DiagKind.unrecognizedComponentName "nope"⟩] ∧
    ((loadNewGraph exEnv (blocksSize [] + 1) { NewLoader with cacheArgs := [] }
        [exCompBad, exCompA] [] [] exEnv.isModule false []).1.GetByID "t.a").isSome = true ∧
    (Apply exEnv NewLoader [] [exCompBad, exCompA] [] []).2.2 = [] ∧
    (Apply exEnv NewLoader [] [exCompBad, exCompA] [] []).1.graph = NewLoader.graph := by
  decide

/-- C2 (amended): an unrecognized component name yields exactly one error
diagnostic and leaves the graph under construction untouched, so valid
sibling blocks are still added to the new graph exactly as they would be
without the bad block; but because `Apply` returns its diagnostics before
evaluation whenever they contain an error, no node — sibling or otherwise —
is evaluated in that pass and the previously installed graph, node lists
and blocks are unchanged. -/
theorem apply_unrecognized_one_diag_no_eval :
    (∀ (env : LoaderEnv) (templates : List (String × Graph)) (block : BlockStmt)
       (rest : List BlockStmt) (st : LoaderState) (g : Graph) (bm : List String),
      blockID block ∉ bm →
      st.graph.GetByID (blockID block) = none →
      block.label ≠ "" →
      templates.find? (fun t => decide (t.1 = joinName block.name)) = none →
      env.registry (joinName block.name) = false →
      populateComponentNodes env templates (block :: rest) st g bm =
        (let r := populateComponentNodes env templates rest st g (bm ++ [blockID block])
         (r.1, r.2.1,
          (⟨Severity.error, DiagKind.unrecognizedComponentName (joinName block.name)⟩ : Diag)
            :: r.2.2))) ∧
    (∀ (env : LoaderEnv) (st : LoaderState) (args : List String)
       (cbs cfgs dbs : List BlockStmt),
      hasErrors (loadNewGraph env (blocksSize dbs + 1) { st with cacheArgs := args }
        cbs cfgs dbs env.isModule false []).2.2 = true →
      (Apply env st args cbs cfgs dbs).2.2 = [] ∧
      (Apply env st args cbs cfgs dbs).1.graph = st.graph ∧
      (Apply env st args cbs cfgs dbs).1.componentNodes = st.componentNodes ∧
      (Apply env st args cbs cfgs dbs).1.serviceNodes = st.serviceNodes ∧
      (Apply env st args cbs cfgs dbs).1.blocks = st.blocks) := by
  constructor
  · intro env templates block rest st g bm hbm hget hlab htmpl hreg
    simp only [populateComponentNodes, populateComponentStep]
    rw [if_neg hbm, hget, if_neg hlab, htmpl]
    simp only [hreg, Bool.false_eq_true, if_false, List.singleton_append]
  · intro env st args cbs cfgs dbs hErr
    have hpres := presInstall_loadNewGraph env (blocksSize dbs + 1)
      { st with cacheArgs := args } cbs cfgs dbs env.isModule false []
    simp only [Apply]
    rw [if_pos hErr]
    exact ⟨rfl, hpres.1, hpres.2.1, hpres.2.2.1, hpres.2.2.2⟩

theorem apply_unrecognized_one_diag_no_eval_witness :
    populateComponentNodes exEnv [] (exCompBad :: [exCompA]) NewLoader Graph.empty [] =
      (let r := populateComponentNodes exEnv [] [exCompA] NewLoader Graph.empty
        ([] ++ [blockID exCompBad])
       (r.1, r.2.1,
        (⟨Severity.error, DiagKind.unrecognizedComponentName (joinName exCompBad.name)⟩ : Diag)
          :: r.2.2)) ∧
    (Apply exEnv NewLoader [] [exCompBad, exCompA] [] []).2.2 = [] :=
  ⟨apply_unrecognized_one_diag_no_eval.1 exEnv [] exCompBad [exCompA] NewLoader
    Graph.empty [] (by decide) (by decide) (by decide) (by decide) (by decide),
   (apply_unrecognized_one_diag_no_eval.2 exEnv NewLoader [] [exCompBad, exCompA] [] []
    (by decide)).1⟩

/-- Every step of the `MergeSubgraph` fold adds exactly one node carrying
the processed node's ID. -/
theorem mergeStep_shape (st : LoaderState) (acc : Graph) (n : Node) :
    ∃ x : Node, x.id = n.id ∧
      (match st.graph.GetByID n.id with
       | some exist =>
         match exist.kind, n.kind with
         | NodeKind.component _, NodeKind.component _ =>
           acc.Add { exist with block := n.block }
         | _, _ => acc.Add n
       | none => acc.Add n) = acc.Add x := by
  cases hg : st.graph.GetByID n.id with
  | none => exact ⟨n, rfl, rfl⟩
  | some exist =>
    have hid : exist.id = n.id := GetByID_some_id hg
    dsimp only
    split
    · exact ⟨{ exist with block := n.block }, hid, rfl⟩
    · exact ⟨n, rfl, rfl⟩

/-- The `MergeSubgraph` fold does not touch IDs absent from the subgraph. -/
theorem mergeFold_preserve (st : LoaderState) :
    ∀ (nodes : List Node) (acc : Graph) (id : String),
    id ∉ nodes.map (fun n => n.id) →
    (nodes.foldl
      (fun (acc : Graph) node =>
        match st.graph.GetByID node.id with
        | some exist =>
          match exist.kind, node.kind with
          | NodeKind.component _, NodeKind.component _ =>
            acc.Add { exist with block := node.block }
          | _, _ => acc.Add node
        | none => acc.Add node)
      acc).GetByID id = acc.GetByID id := by
  intro nodes
  induction nodes with
  | nil => intro acc id _; rfl
  | cons n rest ih =>
    intro acc id hid
    simp only [List.map_cons, List.mem_cons, not_or] at hid
    obtain ⟨x, hx, hfx⟩ := mergeStep_shape st acc n
    simp only [List.foldl_cons]
    rw [hfx, ih _ id hid.2, GetByID_Add, if_neg (hx ▸ hid.1)]

/-- A subgraph node whose ID matches a previous-generation component node
ends up, after `MergeSubgraph`, as that very node with only its block
replaced. -/
theorem mergeFold_reuse (st : LoaderState) :
    ∀ (nodes : List Node) (acc : Graph) (node exist : Node) (c1 c2 : String),
    node ∈ nodes →
    (nodes.map (fun n => n.id)).Nodup →
    st.graph.GetByID node.id = some exist →
    exist.kind = NodeKind.component c1 →
    node.kind = NodeKind.component c2 →
    (nodes.foldl
      (fun (acc : Graph) node =>
        match st.graph.GetByID node.id with
        | some exist =>
          match exist.kind, node.kind with
          | NodeKind.component _, NodeKind.component _ =>
            acc.Add { exist with block := node.block }
          | _, _ => acc.Add node
        | none => acc.Add node)
      acc).GetByID node.id = some { exist with block := node.block } := by
  intro nodes
  induction nodes with
  | nil => intro acc node exist c1 c2 hmem; exact absurd hmem (List.not_mem_nil node)
  | cons n rest ih =>
    intro acc node exist c1 c2 hmem hnd hex hk1 hk2
    simp only [List.map_cons, List.nodup_cons] at hnd
    simp only [List.foldl_cons]
    rcases List.mem_cons.1 hmem with heq | hrest
    · subst heq
      have hid : exist.id = node.id := GetByID_some_id hex
      have hnotin : node.id ∉ rest.map (fun n => n.id) := hnd.1
      obtain ⟨eref, ekind, eid, ens, eblk⟩ := exist
      obtain ⟨nref, nkind, nid, nns, nblk⟩ := node
      dsimp only at hk1 hk2
      subst hk1
      subst hk2
      rw [hex]
      dsimp only
      rw [mergeFold_preserve st rest _ _ hnotin, GetByID_Add]
      dsimp only at hid
      rw [if_pos hid.symm]
    · obtain ⟨x, hx, hfx⟩ := mergeStep_shape st acc n
      rw [hfx]
      exact ih _ node exist c1 c2 hrest hnd.2 hex hk1 hk2

/-- C4: a component block whose ID already names a component node of the
previous graph generation makes `populateComponentNodes` re-add that very
node instance — same `ref`, kind, ID and namespace, only the block
reference updated — without constructing a new node, and the remaining
blocks proceed exactly as the recursion prescribes; likewise
`MergeSubgraph` re-uses a previous-generation component node for a
namespaced subgraph node of the same ID, replacing only its block. -/
theorem populateComponentNodes_reuses_existing :
    (∀ (env : LoaderEnv) (templates : List (String × Graph)) (block : BlockStmt)
       (rest : List BlockStmt) (st : LoaderState) (g : Graph) (bm : List String)
       (exist : Node) (c : String),
      blockID block ∉ bm →
      st.graph.GetByID (blockID block) = some exist →
      exist.kind = NodeKind.component c →
      populateComponentNodes env templates (block :: rest) st g bm =
        populateComponentNodes env templates rest st
          (g.Add { exist with block := some block }) (bm ++ [blockID block]) ∧
      (g.Add { exist with block := some block }).GetByID (blockID block) =
        some { exist with block := some block }) ∧
    (∀ (st : LoaderState) (new sub : Graph) (node exist : Node) (c1 c2 : String),
      node ∈ sub.nodes →
      (sub.nodes.map (fun n => n.id)).Nodup →
      st.graph.GetByID node.id = some exist →
      exist.kind = NodeKind.component c1 →
      node.kind = NodeKind.component c2 →
      (MergeSubgraph st new sub).GetByID node.id =
        some { exist with block := node.block }) := by
  constructor
  · intro env templates block rest st g bm exist c hbm hget hk
    have hid : exist.id = blockID block := GetByID_some_id hget
    constructor
    · obtain ⟨eref, ekind, eid, ens, eblk⟩ := exist
      dsimp only at hk
      subst hk
      simp only [populateComponentNodes]
      rw [if_neg hbm, hget]
      dsimp only [List.nil_append]
    · rw [GetByID_Add]
      dsimp only
      rw [hid, if_pos rfl]
  · intro st new sub node exist c1 c2 hmem hnd hex hk1 hk2
    unfold MergeSubgraph
    dsimp only
    rw [GetByID_MergeEdges]
    exact mergeFold_reuse st sub.nodes new node exist c1 c2 hmem hnd hex hk1 hk2

theorem populateComponentNodes_reuses_existing_witness :
    (populateComponentNodes exEnv [] [exCompA] exPrevState Graph.empty [] =
      populateComponentNodes exEnv [] [] exPrevState
        (Graph.empty.Add { exPrevNode with block := some exCompA }) ([] ++ [blockID exCompA]) ∧
     (Graph.empty.Add { exPrevNode with block := some exCompA }).GetByID (blockID exCompA) =
      some { exPrevNode with block := some exCompA }) ∧
    (MergeSubgraph exPrevState Graph.empty ⟨[exSubNode], []⟩).GetByID exSubNode.id =
      some { exPrevNode with block := exSubNode.block } :=
  ⟨populateComponentNodes_reuses_existing.1 exEnv [] exCompA [] exPrevState
    Graph.empty [] exPrevNode "t" (by decide) (by decide) rfl,
   populateComponentNodes_reuses_existing.2 exPrevState Graph.empty ⟨[exSubNode], []⟩
    exSubNode exPrevNode "t" "t" (by decide) (by decide) (by decide) rfl rfl⟩

theorem mapSetStr_keys_mem (m : List (String × String)) (k v x : String) :
    x ∈ (mapSetStr m k v).map Prod.fst ↔ x = k ∨ x ∈ m.map Prod.fst := by
  induction m with
  | nil => simp [mapSetStr]
  | cons p rest ih =>
    by_cases hp : p.1 = k
    · simp only [mapSetStr]
      rw [if_pos hp]
      simp only [List.map_cons, List.mem_cons, hp]
      tauto
    · simp only [mapSetStr, if_neg hp, List.map_cons, List.mem_cons, ih]
      tauto

theorem evalDeps_inner_keys (parent : String) :
    ∀ (ns : List Node) (acc : List (String × String)) (d : String),
    d ∈ ((ns.foldl (fun acc2 n => mapSetStr acc2 n.id parent) acc).map Prod.fst) ↔
      d ∈ acc.map Prod.fst ∨ ∃ n ∈ ns, d = n.id := by
  intro ns
  induction ns with
  | nil => intro acc d; simp
  | cons n rest ih =>
    intro acc d
    simp only [List.foldl_cons]
    rw [ih, mapSetStr_keys_mem]
    simp only [List.mem_cons]
    constructor
    · rintro (⟨h | h⟩ | ⟨m, hm, hd⟩)
      · exact Or.inr ⟨n, Or.inl rfl, h⟩
      · exact Or.inl h
      · exact Or.inr ⟨m, Or.inr hm, hd⟩
    · rintro (h | ⟨m, hm | hm, hd⟩)
      · exact Or.inl (Or.inr h)
      · exact Or.inl (Or.inl (hm ▸ hd))
      · exact Or.inr ⟨m, hm, hd⟩

theorem evalDeps_keys (st : LoaderState) :
    ∀ (ids : List String) (acc : List (String × String)) (d : String),
    d ∈ ((ids.foldl
      (fun (acc : List (String × String)) parent =>
        (st.graph.incomingNodes parent).foldl
          (fun acc2 n => mapSetStr acc2 n.id parent) acc)
      acc).map Prod.fst) ↔
      d ∈ acc.map Prod.fst ∨
        ∃ parent ∈ ids, ∃ n ∈ st.graph.incomingNodes parent, d = n.id := by
  intro ids
  induction ids with
  | nil => intro acc d; simp
  | cons p rest ih =>
    intro acc d
    simp only [List.foldl_cons]
    rw [ih, evalDeps_inner_keys]
    simp only [List.mem_cons]
    constructor
    · rintro (⟨h | h⟩ | ⟨q, hq, n, hn, hd⟩)
      · exact Or.inl h
      · exact Or.inr ⟨p, Or.inl rfl, h⟩
      · exact Or.inr ⟨q, Or.inr hq, n, hn, hd⟩
    · rintro (h | ⟨q, hq | hq, n, hn, hd⟩)
      · exact Or.inl (Or.inl h)
      · exact Or.inl (Or.inr (hq ▸ ⟨n, hn, hd⟩))
      · exact Or.inr ⟨q, hq, n, hn, hd⟩

/-- C1 counterexample: after the successful `Apply` over the chain with an
explicit direct `t.c → t.a` edge, a change to `t.a` submits only `t.b`
(the walk runs over the installed, transitively reduced graph), whereas
the walk over the non-reduced snapshot the claim describes would submit
both `t.b` and `t.c`. -/
theorem evaluateDependencies_nonreduced_counterexample :
    hasErrors (Apply exEnv NewLoader [] [exCompA, exCompB, exCompC] [] []).2.1 = false ∧
    (EvaluateDependencies stC1 ["t.a"]).map Prod.fst = ["t.b"] ∧
    (nonReducedDependents stC1 ["t.a"]).map Prod.fst = ["t.b", "t.c"] := by
  decide

/-- C1 (amended): the dependents submitted by `EvaluateDependencies` are
exactly those found by walking the direct incoming edges of the *installed*
graph `l.graph`; and after any `Apply` that reports no error the installed
graph is the transitive reduction of the `l.originalGraph` snapshot — so
the walk runs over the reduced graph, and a dependent connected only by an
edge the reduction dropped is not submitted. -/
theorem evaluateDependencies_walks_reduced_graph :
    (∀ (st : LoaderState) (ids : List String) (d : String),
      d ∈ (EvaluateDependencies st ids).map Prod.fst ↔
        ∃ parent ∈ ids, ∃ n ∈ st.graph.incomingNodes parent, d = n.id) ∧
    (∀ (env : LoaderEnv) (st : LoaderState) (args : List String)
       (cbs cfgs dbs : List BlockStmt),
      hasErrors (Apply env st args cbs cfgs dbs).2.1 = false →
      (Apply env st args cbs cfgs dbs).1.graph =
        ((Apply env st args cbs cfgs dbs).1.originalGraph).reduce) := by
  constructor
  · intro st ids d
    unfold EvaluateDependencies
    rw [evalDeps_keys]
    simp
  · intro env st args cbs cfgs dbs hne
    by_cases hc : (buildWired env (declHandlerFuel env (blocksSize dbs))
        { st with cacheArgs := args } cbs cfgs dbs env.isModule false
        []).1.hasCycle = true
    · exfalso
      have h1 : loadNewGraph env (blocksSize dbs + 1) { st with cacheArgs := args }
          cbs cfgs dbs env.isModule false [] =
          ((buildWired env (declHandlerFuel env (blocksSize dbs))
              { st with cacheArgs := args } cbs cfgs dbs env.isModule false []).1,
           (buildWired env (declHandlerFuel env (blocksSize dbs))
              { st with cacheArgs := args } cbs cfgs dbs env.isModule false []).2.1,
           (buildWired env (declHandlerFuel env (blocksSize dbs))
              { st with cacheArgs := args } cbs cfgs dbs env.isModule false []).2.2 ++
             [⟨Severity.error, DiagKind.graphCycle⟩]) := by
        show loadNewGraphStep env (declHandlerFuel env (blocksSize dbs))
          { st with cacheArgs := args } cbs cfgs dbs env.isModule false [] = _
        unfold loadNewGraphStep
        rw [if_pos hc]
      have herr : hasErrors
          ((buildWired env (declHandlerFuel env (blocksSize dbs))
            { st with cacheArgs := args } cbs cfgs dbs env.isModule false []).2.2 ++
            [⟨Severity.error, DiagKind.graphCycle⟩]) = true :=
        hasErrors_of_mem (List.mem_append.2 (Or.inr (List.mem_singleton.2 rfl))) rfl
      simp only [Apply] at hne
      rw [h1] at hne
      dsimp only at hne
      rw [if_pos herr] at hne
      exact Bool.noConfusion (herr.symm.trans hne)
    · have h1 : loadNewGraph env (blocksSize dbs + 1) { st with cacheArgs := args }
          cbs cfgs dbs env.isModule false [] =
          ((buildWired env (declHandlerFuel env (blocksSize dbs))
              { st with cacheArgs := args } cbs cfgs dbs env.isModule false []).1.reduce,
           { (buildWired env (declHandlerFuel env (blocksSize dbs))
              { st with cacheArgs := args } cbs cfgs dbs env.isModule false []).2.1 with
             originalGraph := (buildWired env (declHandlerFuel env (blocksSize dbs))
              { st with cacheArgs := args } cbs cfgs dbs env.isModule false []).1.Clone },
           (buildWired env (declHandlerFuel env (blocksSize dbs))
              { st with cacheArgs := args } cbs cfgs dbs env.isModule false []).2.2) := by
        show loadNewGraphStep env (declHandlerFuel env (blocksSize dbs))
          { st with cacheArgs := args } cbs cfgs dbs env.isModule false [] = _
        unfold loadNewGraphStep
        rw [if_neg hc]
      by_cases hd : hasErrors (buildWired env (declHandlerFuel env (blocksSize dbs))
          { st with cacheArgs := args } cbs cfgs dbs env.isModule false []).2.2 = true
      · exfalso
        simp only [Apply] at hne
        rw [h1] at hne
        dsimp only at hne
        rw [if_pos hd] at hne
        exact Bool.noConfusion (hd.symm.trans hne)
      · simp only [Apply]
        rw [h1]
        dsimp only
        rw [if_neg hd]
        rfl

theorem evaluateDependencies_walks_reduced_graph_witness :
    hasErrors (Apply exEnv NewLoader [] [exCompA, exCompB, exCompC] [] []).2.1 = false ∧
    (Apply exEnv NewLoader [] [exCompA, exCompB, exCompC] [] []).1.graph =
      ((Apply exEnv NewLoader [] [exCompA, exCompB, exCompC] [] []).1.originalGraph).reduce :=
  ⟨by decide, evaluateDependencies_walks_reduced_graph.2 exEnv NewLoader []
    [exCompA, exCompB, exCompC] [] [] (by decide)⟩

/-- C8: the recheck inside the write lock makes the parent callback fire at
most once per distinct export-change version: a section either leaves the
state untouched or — only when the callback is set and the version differs
from the last one notified — notifies exactly once and records the version;
two serialized racing evaluations of the same version notify at most once;
and no run ever notifies the same version twice in a row. -/
theorem moduleExportNotify_once_per_version :
    (∀ (onChange : Bool) (e : Int) (st : NotifyState),
      writeLockedNotify onChange e st = st ∨
      (onChange = true ∧ e ≠ st.moduleExportIndex ∧
       writeLockedNotify onChange e st =
         ⟨e, e :: st.notifications⟩)) ∧
    (∀ (i0 v : Int), (runNotify true ⟨i0, []⟩ [v, v]).notifications =
      if v = i0 then [] else [v]) ∧
    (∀ (onChange : Bool) (events : List Int) (st : NotifyState),
      List.Chain' (fun a b => a ≠ b) st.notifications →
      (st.notifications.head? = none ∨
       st.notifications.head? = some st.moduleExportIndex) →
      List.Chain' (fun a b => a ≠ b) (runNotify onChange st events).notifications) := by
  refine ⟨?_, ?_, ?_⟩
  · intro onChange e st
    unfold writeLockedNotify
    by_cases h : onChange = true ∧ e ≠ st.moduleExportIndex
    · exact Or.inr ⟨h.1, h.2, by rw [if_pos h]⟩
    · exact Or.inl (by rw [if_neg h])
  · intro i0 v
    by_cases hv : v = i0
    · simp [runNotify, writeLockedNotify, hv]
    · simp [runNotify, writeLockedNotify, hv]
  · intro onChange events
    induction events with
    | nil => intro st h1 _; exact h1
    | cons e es ih =>
      intro st h1 h2
      show List.Chain' _ (runNotify onChange (writeLockedNotify onChange e st) es).notifications
      by_cases h : onChange = true ∧ e ≠ st.moduleExportIndex
      · have hw : writeLockedNotify onChange e st =
            ⟨e, e :: st.notifications⟩ := by
          unfold writeLockedNotify; rw [if_pos h]
        rw [hw]
        refine ih _ ?_ (Or.inr rfl)
        rw [List.chain'_cons']
        refine ⟨?_, h1⟩
        intro b hb
        rcases h2 with h2 | h2
        · rw [h2] at hb; exact absurd hb (by simp)
        · rw [h2] at hb
          simp only [Option.mem_def, Option.some.injEq] at hb
          exact hb ▸ h.2
      · have hw : writeLockedNotify onChange e st = st := by
          unfold writeLockedNotify; rw [if_neg h]
        rw [hw]
        exact ih st h1 h2

theorem moduleExportNotify_once_per_version_witness :
    (runNotify true ⟨0, []⟩ [1, 1]).notifications = (if (1 : Int) = 0 then [] else [1]) ∧
    List.Chain' (fun a b => a ≠ b) (runNotify true ⟨0, []⟩ [3, 3, 5]).notifications :=
  ⟨moduleExportNotify_once_per_version.2.1 0 1,
   moduleExportNotify_once_per_version.2.2 true [3, 3, 5] ⟨0, []⟩
    List.chain'_nil (Or.inl rfl)⟩

/-- C9: once the context is cancelled (from retry count `N` on) the loop's
result no longer depends on the remaining fuel — it terminates within
`N - r + 1` further iterations instead of retrying forever; every slept
delay stays within the configured minimum and maximum; and the final retry
count exceeds the initial one by exactly the number of logged, slept
retries (one log line and one sleep per failed submission). -/
theorem evaluateDependencies_backoff_bounded :
    (∀ (cfg : BackoffCfg) (c s : Nat → Bool) (N : Nat),
      (∀ k, N ≤ k → c k = true) →
      ∀ (r d fuel fuel' : Nat), N - r < fuel → N - r < fuel' →
      submitLoop cfg c s fuel r d = submitLoop cfg c s fuel' r d) ∧
    (∀ (cfg : BackoffCfg) (c s : Nat → Bool) (fuel r d : Nat),
      0 < cfg.minBackoff → cfg.minBackoff ≤ cfg.maxBackoff →
      cfg.minBackoff ≤ d → d ≤ cfg.maxBackoff →
      ∀ x ∈ (submitLoop cfg c s fuel r d).2.2.2,
        cfg.minBackoff ≤ x ∧ x ≤ cfg.maxBackoff) ∧
    (∀ (cfg : BackoffCfg) (c s : Nat → Bool) (fuel r d : Nat),
      (submitLoop cfg c s fuel r d).2.1 =
        r + (submitLoop cfg c s fuel r d).2.2.2.length) := by
  refine ⟨?_, ?_, ?_⟩
  · intro cfg c s N hc r d fuel
    induction fuel generalizing r d with
    | zero => intro fuel' h1 h2; omega
    | succ f ih =>
      intro fuel' h1 h2
      cases fuel' with
      | zero => omega
      | succ f2 =>
        simp only [submitLoop]
        by_cases hcr : c r = true
        · rw [if_pos hcr, if_pos hcr]
        · rw [if_neg hcr, if_neg hcr]
          by_cases hs : s r = true
          · rw [if_pos hs, if_pos hs]
          · rw [if_neg hs, if_neg hs]
            have hrN : r < N := by
              by_contra hge
              exact hcr (hc r (by omega))
            rw [ih (r + 1) (nextBackoffDelay cfg d) f2 (by omega) (by omega)]
  · intro cfg c s fuel
    induction fuel with
    | zero => intro r d _ _ _ _ x hx; exact absurd hx (List.not_mem_nil x)
    | succ f ih =>
      intro r d hmin hminmax hd1 hd2 x hx
      simp only [submitLoop] at hx
      by_cases hcr : c r = true
      · rw [if_pos hcr] at hx; exact absurd hx (List.not_mem_nil x)
      · rw [if_neg hcr] at hx
        by_cases hs : s r = true
        · rw [if_pos hs] at hx; exact absurd hx (List.not_mem_nil x)
        · rw [if_neg hs] at hx
          dsimp only at hx
          rcases List.mem_cons.1 hx with hxd | hxr
          · exact ⟨hxd ▸ hd1, hxd ▸ hd2⟩
          · have hb : cfg.minBackoff ≤ nextBackoffDelay cfg d ∧
                nextBackoffDelay cfg d ≤ cfg.maxBackoff := by
              unfold nextBackoffDelay; omega
            exact ih (r + 1) (nextBackoffDelay cfg d) hmin hminmax hb.1 hb.2 x hxr
  · intro cfg c s fuel
    induction fuel with
    | zero => intro r d; simp [submitLoop]
    | succ f ih =>
      intro r d
      simp only [submitLoop]
      by_cases hcr : c r = true
      · rw [if_pos hcr]; simp
      · rw [if_neg hcr]
        by_cases hs : s r = true
        · rw [if_pos hs]; simp
        · rw [if_neg hs]
          dsimp only
          rw [ih (r + 1) (nextBackoffDelay cfg d)]
          simp only [List.length_cons]
          omega

theorem evaluateDependencies_backoff_bounded_witness :
    ((∀ k, 2 ≤ k → (fun k => decide (2 ≤ k)) k = true) ∧
      submitLoop backoffConfig (fun k => decide (2 ≤ k)) (fun _ => false) 3 0 1 =
        submitLoop backoffConfig (fun k => decide (2 ≤ k)) (fun _ => false) 7 0 1) ∧
    (∀ x ∈ (submitLoop backoffConfig (fun k => decide (2 ≤ k)) (fun _ => false)
        3 0 1).2.2.2, backoffConfig.minBackoff ≤ x ∧ x ≤ backoffConfig.maxBackoff) ∧
    (submitLoop backoffConfig (fun k => decide (2 ≤ k)) (fun _ => false) 3 0 1).2.1 =
      0 + (submitLoop backoffConfig (fun k => decide (2 ≤ k)) (fun _ => false)
        3 0 1).2.2.2.length :=
  ⟨⟨fun k hk => by simp [hk],
    evaluateDependencies_backoff_bounded.1 backoffConfig (fun k => decide (2 ≤ k))
      (fun _ => false) 2 (fun k hk => by simp [hk]) 0 1 3 7 (by decide) (by decide)⟩,
   evaluateDependencies_backoff_bounded.2.1 backoffConfig (fun k => decide (2 ≤ k))
      (fun _ => false) 3 0 1 (by decide) (by decide) (by decide) (by decide),
   evaluateDependencies_backoff_bounded.2.2 backoffConfig (fun k => decide (2 ≤ k))
      (fun _ => false) 3 0 1⟩

end Controller
